import Mathlib

/-!
Shallow embedding of `auto_refactor_ai/project_analyzer.py` (the project-wide
code-clone detector) and proofs about it.

Modelling conventions:
* The Python AST is embedded as a tagged union over the node kinds the
  analyzer actually distinguishes (identifiers, string and integer constants,
  calls, binary operations, expression statements, assignments, returns,
  conditionals, and function definitions, both sync and async).  This follows
  the design note in the specification that open-ended visitor dispatch is to
  be modelled as a finite sum type.
* `ast.NodeTransformer` dispatch is embedded as explicit state-passing
  recursion: `ASTNormalizer`'s mutable `name_map` / `counter` become the
  `NormState` record threaded through the traversal, in the exact field order
  Python's `generic_visit` uses (a function's arguments before its body,
  assignment targets before the assigned value, and so on).
* `ast.dump(node, annotate_fields=False)` is embedded as a deterministic
  serialization that, like the original, records constructor names and child
  order but no line/column attributes.  Python's quoting of string values
  and the constant `Load`/`Store` context children of `Name` nodes (which
  the normalizer never touches) are elided; constructor tags keep distinct
  node kinds distinct.
* `hashlib.md5(...).hexdigest()` is embedded as a computable 128-bit digest
  of the serialization.  Every claim in scope uses only the fact that equal
  serializations yield equal digests (and, for explicit counterexamples,
  concrete digest inequality, which is evaluated), never an abstract
  collision-freeness assumption.
* Python `int` is `Int`, line numbers included; `float` parameters that are
  never inspected (the similarity threshold) are `ℚ`.
* File reading and `ast.parse` are external collaborators per the spec; a
  file enters the model as its path together with `Option StmtList`, where
  `none` models a file whose source fails to parse (the `except` path).
  Since Python 3.8 every parsed definition node carries `end_lineno`, so the
  defensive `hasattr`/`getattr` fallbacks in `extract_functions_from_file`
  never fire on parser output; the model therefore keeps `end_lineno` as a
  required field.
-/

namespace AutoRefactor

mutual
/-- Expressions of the embedded Python AST subset.  `constStr`/`constInt`
are `ast.Constant` split by the runtime type of its value, which is the only
distinction `ASTNormalizer.visit_Constant` makes. -/
inductive Expr where
  | name (id : String)
  | constStr (s : String)
  | constInt (n : Int)
  | call (f : Expr) (args : ExprList)
  | binop (op : String) (l : Expr) (r : Expr)
inductive ExprList where
  | nil
  | cons (e : Expr) (es : ExprList)
end

mutual
/-- Statements of the embedded AST subset.  `funcDef` covers both
`ast.FunctionDef` and `ast.AsyncFunctionDef` via the `isAsync` flag; its
`args` are the positional parameter names, which is all
`extract_functions_from_file` reads. -/
inductive Stmt where
  | exprStmt (e : Expr)
  | assign (targets : ExprList) (value : Expr)
  | ret (e : Expr)
  | retNone
  | ifS (test : Expr) (body : StmtList) (orelse : StmtList)
  | funcDef (name : String) (args : List String) (body : StmtList)
      (lineno : Int) (end_lineno : Int) (isAsync : Bool)
inductive StmtList where
  | nil
  | cons (s : Stmt) (ss : StmtList)
end

/-- The mutable state of `ASTNormalizer`: the `name_map` dict (an
insertion-ordered association list, like a Python dict) and the `counter`. -/
structure NormState where
  name_map : List (String × String)
  counter : Nat

/-- `ASTNormalizer._get_normalized_name`: look the original name up in
`name_map`; on a miss, bind it to `var_<counter>` (appended at the end, as
Python dict insertion does) and bump the counter. -/
def getNormalizedName (st : NormState) (original : String) : String × NormState :=
  match List.lookup original st.name_map with
  | some v => (v, st)
  | none =>
      let v := "var_" ++ toString st.counter
      (v, ⟨st.name_map ++ [(original, v)], st.counter + 1⟩)

/-- The docstring test in `visit_FunctionDef`/`visit_AsyncFunctionDef`:
`node.body` is nonempty, `body[0]` is an `ast.Expr` whose value is an
`ast.Constant` holding a `str`; in that case `body[1:]` is kept. -/
def stripDocstring : StmtList → StmtList
  | .cons (.exprStmt (.constStr _)) rest => rest
  | body => body

/-- Whether a statement list starts with a bare string-literal expression
statement, i.e. whether `stripDocstring` would drop its head. -/
def startsWithBareStr : StmtList → Bool
  | .cons (.exprStmt (.constStr _)) _ => true
  | _ => false

/-- `ASTNormalizer.visit_arg` applied to each positional argument in
declaration order (how `generic_visit` reaches the `arguments` node). -/
def normArgs (st : NormState) : List String → List String × NormState
  | [] => ([], st)
  | a :: rest =>
      let r := getNormalizedName st a
      let r2 := normArgs r.2 rest
      (r.1 :: r2.1, r2.2)

mutual
/-- The `ASTNormalizer` traversal.  Each case is the corresponding
`visit_*` method (for `Name`, `arg`, `Constant`, `FunctionDef`,
`AsyncFunctionDef`) or `generic_visit`'s field-order recursion (for every
other node kind).  Note that `visit_Name` renames every identifier it sees,
bound or not, through the single shared `name_map`. -/
def normExpr (st : NormState) : Expr → Expr × NormState
  | .name x =>
      let r := getNormalizedName st x
      (.name r.1, r.2)
  | .constStr _ => (.constStr "str_const", st)
  | .constInt n => (.constInt n, st)
  | .call f args =>
      let r1 := normExpr st f
      let r2 := normExprList r1.2 args
      (.call r1.1 r2.1, r2.2)
  | .binop op l r =>
      let r1 := normExpr st l
      let r2 := normExpr r1.2 r
      (.binop op r1.1 r2.1, r2.2)
def normExprList (st : NormState) : ExprList → ExprList × NormState
  | .nil => (.nil, st)
  | .cons e es =>
      let r1 := normExpr st e
      let r2 := normExprList r1.2 es
      (.cons r1.1 r2.1, r2.2)
end

mutual
/-- Statement case of the `ASTNormalizer` traversal.  The `funcDef` case is
`visit_FunctionDef`/`visit_AsyncFunctionDef`: set the name to
`normalized_func`, drop a leading docstring, then `generic_visit` the
remaining fields (arguments first, then the body). -/
def normStmt (st : NormState) : Stmt → Stmt × NormState
  | .exprStmt e =>
      let r := normExpr st e
      (.exprStmt r.1, r.2)
  | .assign targets value =>
      let r1 := normExprList st targets
      let r2 := normExpr r1.2 value
      (.assign r1.1 r2.1, r2.2)
  | .ret e =>
      let r := normExpr st e
      (.ret r.1, r.2)
  | .retNone => (.retNone, st)
  | .ifS test body orelse =>
      let r1 := normExpr st test
      let r2 := normStmtList r1.2 body
      let r3 := normStmtList r2.2 orelse
      (.ifS r1.1 r2.1 r3.1, r3.2)
  | .funcDef _ args body l e async =>
      let r1 := normArgs st args
      let r2 := normStmtListStripped r1.2 body
      (.funcDef "normalized_func" r1.1 r2.1 l e async, r2.2)
/-- Normalization of a function body after the docstring strip, fused with
the strip itself so that the recursion stays structural; the lemma
`normStmtListStripped_eq` states that this equals
`normStmtList st (stripDocstring body)`. -/
def normStmtListStripped (st : NormState) : StmtList → StmtList × NormState
  | .cons (.exprStmt (.constStr _)) rest => normStmtList st rest
  | .nil => (.nil, st)
  | .cons s ss =>
      let r1 := normStmt st s
      let r2 := normStmtList r1.2 ss
      (.cons r1.1 r2.1, r2.2)
/-- List case of the statement traversal. -/
def normStmtList (st : NormState) : StmtList → StmtList × NormState
  | .nil => (.nil, st)
  | .cons s ss =>
      let r1 := normStmt st s
      let r2 := normStmtList r1.2 ss
      (.cons r1.1 r2.1, r2.2)
end

/-- Comma-separated rendering of a string list, used for parameter lists in
the serialization. -/
def commaSep : List String → String
  | [] => ""
  | [a] => a
  | a :: rest => a ++ ", " ++ commaSep rest

mutual
/-- The `ast.dump(node, annotate_fields=False)` serialization: constructor
name followed by the serialized fields in field order, statement lists in
brackets; line/column attributes are not included (the default). -/
def dumpExpr : Expr → String
  | .name x => "Name(" ++ x ++ ")"
  | .constStr s => "Constant(s:" ++ s ++ ")"
  | .constInt n => "Constant(i:" ++ toString n ++ ")"
  | .call f args => "Call(" ++ dumpExpr f ++ ", [" ++ dumpExprList args ++ "])"
  | .binop op l r => "BinOp(" ++ dumpExpr l ++ ", " ++ op ++ "(), " ++ dumpExpr r ++ ")"
def dumpExprList : ExprList → String
  | .nil => ""
  | .cons e .nil => dumpExpr e
  | .cons e es => dumpExpr e ++ ", " ++ dumpExprList es
end

mutual
/-- Serialization of statements, mirroring the statement constructors. -/
def dumpStmt : Stmt → String
  | .exprStmt e => "Expr(" ++ dumpExpr e ++ ")"
  | .assign targets value =>
      "Assign([" ++ dumpExprList targets ++ "], " ++ dumpExpr value ++ ")"
  | .ret e => "Return(" ++ dumpExpr e ++ ")"
  | .retNone => "Return(None)"
  | .ifS test body orelse =>
      "If(" ++ dumpExpr test ++ ", [" ++ dumpStmtList body ++ "], [" ++
        dumpStmtList orelse ++ "])"
  | .funcDef name args body _ _ async =>
      (if async then "AsyncFunctionDef(" else "FunctionDef(") ++ name ++
        ", arguments([" ++ commaSep args ++ "]), [" ++ dumpStmtList body ++ "])"
def dumpStmtList : StmtList → String
  | .nil => ""
  | .cons s .nil => dumpStmt s
  | .cons s ss => dumpStmt s ++ ", " ++ dumpStmtList ss
end

/-- Digest accumulator over the serialized characters, kept below `2 ^ 128`. -/
def md5Go (h : Nat) : List Char → Nat
  | [] => h
  | c :: cs => md5Go ((h * 131 + c.toNat) % (2 ^ 128)) cs

/-- Stand-in for `hashlib.md5(normalized.encode()).hexdigest()`: a computable
128-bit digest of the serialized canonical form.  Equal serializations give
equal digests, which is the only property the analyzer relies on; where a
proof below asserts digest inequality it evaluates this function at both
concrete inputs. -/
def md5 (s : String) : Nat :=
  md5Go 5381 s.data

/-- `normalize_ast`: run a fresh `ASTNormalizer` over (a copy of) the node
and serialize the result.  Purity of the Lean embedding plays the role of
`copy.deepcopy`. -/
def normalize_ast (node : Stmt) : String :=
  dumpStmt (normStmt ⟨[], 0⟩ node).1

/-- `hash_function_body`: digest of the normalized serialization. -/
def hash_function_body (func_node : Stmt) : Nat :=
  md5 (normalize_ast func_node)

/-- Insert a string into a list unless already present (appending at the
end), the insertion-order model of adding to a Python `set`/`dict`. -/
def addDistinct (l : List String) (x : String) : List String :=
  if x ∈ l then l else l ++ [x]

/-- The distinct elements of a list in first-occurrence order. -/
def firstOccur (l : List String) : List String :=
  l.foldl addDistinct []

/-- Split a character list on a separator character; always returns at
least one (possibly empty) part.  This is the computable core of the
`str.split` / `pathlib` component handling used by the heuristics. -/
def splitChars (sep : Char) : List Char → List (List Char)
  | [] => [[]]
  | c :: cs =>
      match splitChars sep cs with
      | [] => [[]]
      | w :: ws => if c = sep then [] :: w :: ws else (c :: w) :: ws

/-- The slash-separated components of a path string. -/
def pathComponents (p : String) : List String :=
  (splitChars '/' p.data).map String.mk

/-- Join strings with a separator. -/
def joinSep (sep : String) : List String → String
  | [] => ""
  | [x] => x
  | x :: rest => x ++ sep ++ joinSep sep rest

/-- Last path component, as `pathlib.Path(p).name`. -/
def pathName (p : String) : String :=
  match (pathComponents p).reverse with
  | [] => ""
  | x :: _ => x

/-- Name of the containing directory, as `Path(p).parent.name` (empty when
the path has no directory part, since the name of the dot path is empty). -/
def pathParentName (p : String) : String :=
  match ((pathComponents p).dropLast).reverse with
  | [] => ""
  | x :: _ => x

/-- The containing directory as a string, as `str(Path(p).parent)` (a dot
when the path has no directory part). -/
def pathParentStr (p : String) : String :=
  match (pathComponents p).dropLast with
  | [] => "."
  | cs => joinSep "/" cs

/-- Join a directory and a file name, as `Path` division does (the dot
path divided by a name drops the dot). -/
def pathJoin (d f : String) : String :=
  if d = "." then f else d ++ "/" ++ f

/-- Final path component without its extension, as `Path(p).stem`. -/
def pathStem (p : String) : String :=
  match (splitChars '.' (pathName p).data).map String.mk with
  | [] => ""
  | [x] => x
  | parts => joinSep "." parts.dropLast

/-- The `FunctionSignature` dataclass: signature and metadata for one
function, with the digest under `body_hash` (the spec's `structuralHash`). -/
structure FunctionSignature where
  file : String
  name : String
  start_line : Int
  end_line : Int
  parameters : List String
  body_hash : Nat
  parameter_count : Nat
  line_count : Int
deriving DecidableEq

/-- The `location` property. -/
def FunctionSignature.location (s : FunctionSignature) : String :=
  s.file ++ ":" ++ toString s.start_line ++ "-" ++ toString s.end_line

/-- The `qualified_name` property (file stem dot function name). -/
def FunctionSignature.qualified_name (s : FunctionSignature) : String :=
  pathStem s.file ++ "." ++ s.name

/-- The `DuplicateGroup` dataclass.  `similarity` is a Python float carried
along but never inspected by the grouping algorithm; it is modelled as `ℚ`. -/
structure DuplicateGroup where
  functions : List FunctionSignature
  similarity : ℚ
  suggested_name : String := ""
  suggested_module : String := ""
deriving DecidableEq

/-- The `count` property. -/
def DuplicateGroup.count (g : DuplicateGroup) : Nat :=
  g.functions.length

/-- The `files` property; the Python `set` is modelled as the distinct
files in first-occurrence order. -/
def DuplicateGroup.files (g : DuplicateGroup) : List String :=
  firstOccur (g.functions.map (·.file))

/-- The `total_lines` property. -/
def DuplicateGroup.total_lines (g : DuplicateGroup) : Int :=
  (g.functions.map (·.line_count)).sum

/-- The `potential_savings` property: zero for at most one member,
otherwise `total_lines` minus `total_lines` floor-divided by `count`;
Python floor division on `int` is `Int.fdiv`. -/
def DuplicateGroup.potential_savings (g : DuplicateGroup) : Int :=
  if g.count ≤ 1 then 0
  else g.total_lines - Int.fdiv g.total_lines (g.count : Int)

/-- The free-text recommendation lines of `generate_recommendations`,
modelled as a datatype carrying exactly the data interpolated into each
f-string: the duplicate-summary line and the same-name-in-several-files
line. -/
inductive Recommendation where
  | dupSummary (groupCount : Nat) (totalSavings : Int)
  | sameName (name : String) (fileCount : Nat)
deriving DecidableEq

/-- The `ProjectAnalysis` dataclass. -/
structure ProjectAnalysis where
  root_path : String
  files_analyzed : Nat := 0
  functions_found : Nat := 0
  duplicates : List DuplicateGroup := []
  recommendations : List Recommendation := []
deriving DecidableEq

/-- The `duplicate_count` property. -/
def ProjectAnalysis.duplicate_count (a : ProjectAnalysis) : Nat :=
  (a.duplicates.map (·.count)).sum

/-- The `potential_savings` property on the aggregate. -/
def ProjectAnalysis.potential_savings (a : ProjectAnalysis) : Int :=
  (a.duplicates.map (·.potential_savings)).sum

/-- Statement list converted to an ordinary list. -/
def stmtListToList : StmtList → List Stmt
  | .nil => []
  | .cons s ss => s :: stmtListToList ss

/-- The statement children of a statement, the only child edges along which
further function definitions can occur in this AST subset (expressions
contain no statements here).  This is `ast.iter_child_nodes` restricted to
what matters for collecting definitions. -/
def childStmts : Stmt → List Stmt
  | .funcDef _ _ body _ _ _ => stmtListToList body
  | .ifS _ body orelse => stmtListToList body ++ stmtListToList orelse
  | _ => []

mutual
/-- Number of statement nodes, used only as a fuel bound for the walk. -/
def stmtCount : Stmt → Nat
  | .funcDef _ _ body _ _ _ => 1 + stmtListCount body
  | .ifS _ body orelse => 1 + stmtListCount body + stmtListCount orelse
  | _ => 1
/-- Statement-node count of a list. -/
def stmtListCount : StmtList → Nat
  | .nil => 0
  | .cons s ss => stmtCount s + stmtListCount ss
end

/-- Breadth-first enumeration of statements level by level, which is the
order `ast.walk` (a popleft queue extended with each node's children)
yields statement nodes.  Structured as fuel-indexed level concatenation so
that the recursion is structural; once a level is empty every later level is
empty too. -/
def walkLevels : Nat → List Stmt → List Stmt
  | 0, _ => []
  | fuel + 1, level => level ++ walkLevels fuel (level.flatMap childStmts)

/-- All statements of a module tree in `ast.walk` order; the node count
plus one bounds the number of nonempty levels. -/
def walkStmts (tree : StmtList) : List Stmt :=
  walkLevels (stmtListCount tree + 1) (stmtListToList tree)

/-- The signature record built for one `FunctionDef`/`AsyncFunctionDef`
node inside `extract_functions_from_file`, in the field order of the
Python constructor call. -/
def mkSignature (file_path : String) : Stmt → Option FunctionSignature
  | .funcDef name args body l e async => some
      { file := file_path
        name := name
        start_line := l
        end_line := e
        parameters := args
        body_hash := hash_function_body (.funcDef name args body l e async)
        parameter_count := args.length
        line_count := e - l + 1 }
  | _ => none

/-- `extract_functions_from_file`: the file's parse result enters the model
as `Option StmtList`, where `none` is a source that fails to parse (the
`except` path of the `try` block, which swallows the error); a parsed tree
is walked and every definition node yields one signature. -/
def extract_functions_from_file (file_path : String) :
    Option StmtList → List FunctionSignature
  | none => []
  | some tree => (walkStmts tree).filterMap (mkSignature file_path)

/-- `calculate_similarity`: binary hash equality. -/
def calculate_similarity (hash1 hash2 : Nat) : ℚ :=
  if hash1 = hash2 then 1 else 0

/-- The character loop of `_find_common_words` for one name: split on
underscores and lower-to-upper case transitions, lowercase every word, and
collect the words as a set (modelled in insertion order). -/
def splitNameGo : List Char → List Char → List String → List String
  | [], current, words =>
      if current.isEmpty then words else addDistinct words (String.mk current)
  | c :: rest, current, words =>
      if c = '_' then
        if current.isEmpty then splitNameGo rest [] words
        else splitNameGo rest [] (addDistinct words (String.mk current))
      else if c.isUpper && !current.isEmpty then
        splitNameGo rest [c.toLower] (addDistinct words (String.mk current))
      else splitNameGo rest (current ++ [c.toLower]) words

/-- Word set of one function name. -/
def splitName (name : String) : List String :=
  splitNameGo name.data [] []

/-- Stable insertion keeping longer strings first, used to model
`sorted(common, key=len, reverse=True)` (tie order among equal lengths is
unspecified for a Python set; the model fixes the insertion order). -/
def insertLenDesc (w : String) : List String → List String
  | [] => [w]
  | x :: rest => if x.length < w.length then w :: x :: rest else x :: insertLenDesc w rest

/-- Sort strings by descending length. -/
def sortByLenDesc (l : List String) : List String :=
  l.foldl (fun acc w => insertLenDesc w acc) []

/-- `_find_common_words` (written `find_common_words` here): intersect the
word sets of all names and return the common words longest first. -/
def find_common_words (names : List String) : List String :=
  match names.map splitName with
  | [] => []
  | ws0 :: wsRest =>
      sortByLenDesc (wsRest.foldl (fun common ws => common.filter (· ∈ ws)) ws0)

/-- `_suggest_module` (written `suggest_module` here): a common containing
directory suggests `dir/utils.py`, otherwise the first member's directory
joined with `shared.py`. -/
def suggest_module (functions : List FunctionSignature) : String :=
  let dirs := functions.map (fun f => pathParentName f.file)
  match firstOccur dirs with
  | [d] => d ++ "/utils.py"
  | _ =>
      match functions with
      | [] => ""
      | f :: _ => pathJoin (pathParentStr f.file) "shared.py"

/-- One step of bucketing into the `hash_groups` defaultdict: append the
signature to its hash's bucket, or open a new bucket at the end (dict
insertion order). -/
def addToHashGroups (m : List (Nat × List FunctionSignature))
    (f : FunctionSignature) : List (Nat × List FunctionSignature) :=
  match m with
  | [] => [(f.body_hash, [f])]
  | (h, g) :: rest =>
      if h = f.body_hash then (h, g ++ [f]) :: rest
      else (h, g) :: addToHashGroups rest f

/-- The `DuplicateGroup` constructed for one surviving hash bucket inside
`find_duplicates`. -/
def mkDuplicateGroup (group : List FunctionSignature) : DuplicateGroup :=
  let common_words := find_common_words (group.map (·.name))
  let suggested_name :=
    match common_words with
    | w :: _ => w
    | [] =>
        match group with
        | g :: _ => g.name
        | [] => ""
  { functions := group
    similarity := 1
    suggested_name := suggested_name
    suggested_module := suggest_module group }

/-- Stable descending insertion by member count: a group moves before the
first strictly smaller group, so equal counts keep their original order. -/
def insertByCountDesc (g : DuplicateGroup) :
    List DuplicateGroup → List DuplicateGroup
  | [] => [g]
  | x :: rest =>
      if x.count < g.count then g :: x :: rest
      else x :: insertByCountDesc g rest

/-- The stable `duplicates.sort(key=count, reverse=True)`. -/
def sortByCountDesc (l : List DuplicateGroup) : List DuplicateGroup :=
  l.foldl (fun acc g => insertByCountDesc g acc) []

/-- `find_duplicates`: filter by minimum line count, bucket by digest,
keep buckets of at least two members as groups, sort by descending count.
The `threshold` parameter is accepted, as in the source, and never read. -/
def find_duplicates (functions : List FunctionSignature) (threshold : ℚ)
    (min_lines : Int) : List DuplicateGroup :=
  let candidates := functions.filter (fun f => min_lines ≤ f.line_count)
  let hash_groups := candidates.foldl addToHashGroups []
  let duplicates := hash_groups.filterMap (fun p =>
    if 2 ≤ p.2.length then some (mkDuplicateGroup p.2) else none)
  sortByCountDesc duplicates

/-- One step of building the `name_to_files` defaultdict: append the file
to the bucket of the function's name (dict insertion order; every
occurrence appends, so a file can appear several times in one bucket). -/
def addNameFile (m : List (String × List String)) (name file : String) :
    List (String × List String) :=
  match m with
  | [] => [(name, [file])]
  | (n, fs) :: rest =>
      if n = name then (n, fs ++ [file]) :: rest
      else (n, fs) :: addNameFile rest name file

/-- `generate_recommendations`: a summary line when any duplicate groups
exist, then one line per function name whose `name_to_files` bucket has at
least three entries and which is not a common lifecycle name. -/
def generate_recommendations (functions : List FunctionSignature)
    (duplicates : List DuplicateGroup) : List Recommendation :=
  let recs1 : List Recommendation :=
    if duplicates.isEmpty then []
    else [.dupSummary duplicates.length ((duplicates.map (·.potential_savings)).sum)]
  let name_to_files := functions.foldl (fun m f => addNameFile m f.name f.file) []
  recs1 ++ name_to_files.filterMap (fun p =>
    if 3 ≤ p.2.length ∧ p.1 ∉ (["__init__", "main", "setup"] : List String)
    then some (.sameName p.1 p.2.length) else none)

/-- The filesystem as `analyze_project` observes it through `pathlib`:
whether `root.is_file()` holds, whether the root's suffix is `.py`, and the
discovered Python files with their parse results.  When the root is a file,
`files` is that single file; when it is a directory, `files` is the
`root.rglob` result in traversal order; a nonexistent root has
`root_is_file = false` and `files = []`, because `Path.rglob` on a missing
directory yields nothing rather than raising. -/
structure FSModel where
  root_is_file : Bool
  root_suffix_py : Bool
  files : List (String × Option StmtList)

/-- `analyze_project`: discover files, extract and concatenate all
signatures, group duplicates, and attach recommendations. -/
def analyze_project (root_path : String) (fs : FSModel) (min_lines : Int)
    (similarity_threshold : ℚ) : ProjectAnalysis :=
  let python_files :=
    if fs.root_is_file then (if fs.root_suffix_py then fs.files else [])
    else fs.files
  let all_functions :=
    python_files.flatMap (fun pf => extract_functions_from_file pf.1 pf.2)
  let dups := find_duplicates all_functions similarity_threshold min_lines
  { root_path := root_path
    files_analyzed := python_files.length
    functions_found := all_functions.length
    duplicates := dups
    recommendations := generate_recommendations all_functions dups }

/-! Identifier sequences of the normalizer traversal.  These record, in
visitation order, exactly the identifiers the traversal feeds through
`getNormalizedName`: argument names first, then every `Name` in the body,
with a leading docstring dropped just as the traversal drops it. -/

mutual
/-- Identifiers of an expression in traversal order. -/
def exprIdents : Expr → List String
  | .name x => [x]
  | .constStr _ => []
  | .constInt _ => []
  | .call f args => exprIdents f ++ exprListIdents args
  | .binop _ l r => exprIdents l ++ exprIdents r
/-- Identifiers of an expression list in traversal order. -/
def exprListIdents : ExprList → List String
  | .nil => []
  | .cons e es => exprIdents e ++ exprListIdents es
end

mutual
/-- Identifiers of a statement in traversal order. -/
def stmtIdents : Stmt → List String
  | .exprStmt e => exprIdents e
  | .assign targets value => exprListIdents targets ++ exprIdents value
  | .ret e => exprIdents e
  | .retNone => []
  | .ifS test body orelse =>
      exprIdents test ++ stmtListIdents body ++ stmtListIdents orelse
  | .funcDef _ args body _ _ _ => args ++ strippedIdents body
/-- Identifiers of a function body after the docstring strip. -/
def strippedIdents : StmtList → List String
  | .cons (.exprStmt (.constStr _)) rest => stmtListIdents rest
  | .nil => []
  | .cons s ss => stmtIdents s ++ stmtListIdents ss
/-- Identifiers of a statement list in traversal order. -/
def stmtListIdents : StmtList → List String
  | .nil => []
  | .cons s ss => stmtIdents s ++ stmtListIdents ss
end

/-- Feed a sequence of identifiers through `getNormalizedName`, keeping only
the state; the traversal's state evolution factors through this. -/
def processIdents (st : NormState) (l : List String) : NormState :=
  l.foldl (fun s n => (getNormalizedName s n).2) st

/-- The association list binding the k-th of the given names to `var_<i+k>`,
used to describe the `name_map` contents in closed form. -/
def mapFrom (i : Nat) : List String → List (String × String)
  | [] => []
  | n :: rest => (n, "var_" ++ toString i) :: mapFrom (i + 1) rest

/-- The normalizer state after the distinct names `seen` were bound in
order: `name_map` binds the k-th name to `var_<k>` and the counter is the
number of distinct names seen. -/
def stateOf (seen : List String) : NormState :=
  ⟨mapFrom 0 seen, seen.length⟩

/-- The state map induced by a renaming: keys renamed, values and counter
untouched.  During the renaming-invariance proof the normalizer's state on
the renamed tree is always the `mapSt` image of its state on the original. -/
def mapSt (σ : String → String) (st : NormState) : NormState :=
  ⟨st.name_map.map (fun p => (σ p.1, p.2)), st.counter⟩

mutual
/-- Apply a renaming to every identifier occurrence of an expression. -/
def renameExpr (σ : String → String) : Expr → Expr
  | .name x => .name (σ x)
  | .constStr s => .constStr s
  | .constInt n => .constInt n
  | .call f args => .call (renameExpr σ f) (renameExprList σ args)
  | .binop op l r => .binop op (renameExpr σ l) (renameExpr σ r)
/-- Renaming over an expression list. -/
def renameExprList (σ : String → String) : ExprList → ExprList
  | .nil => .nil
  | .cons e es => .cons (renameExpr σ e) (renameExprList σ es)
end

mutual
/-- Apply a renaming to every identifier occurrence of a statement:
parameters, names, and (nested) definition names alike.  A function's own
name is irrelevant to the digest because normalization replaces it. -/
def renameStmt (σ : String → String) : Stmt → Stmt
  | .exprStmt e => .exprStmt (renameExpr σ e)
  | .assign targets value => .assign (renameExprList σ targets) (renameExpr σ value)
  | .ret e => .ret (renameExpr σ e)
  | .retNone => .retNone
  | .ifS test body orelse =>
      .ifS (renameExpr σ test) (renameStmtList σ body) (renameStmtList σ orelse)
  | .funcDef n args body l e async =>
      .funcDef (σ n) (args.map σ) (renameStmtList σ body) l e async
/-- Renaming over a statement list. -/
def renameStmtList (σ : String → String) : StmtList → StmtList
  | .nil => .nil
  | .cons s ss => .cons (renameStmt σ s) (renameStmtList σ ss)
end

mutual
/-- Blank out the contents of every string literal of an expression,
leaving all other structure intact.  Two trees differ only in
string-literal contents exactly when their erasures coincide, which is how
the string-literal clause of the invariance property is stated. -/
def eraseExpr : Expr → Expr
  | .name x => .name x
  | .constStr _ => .constStr ""
  | .constInt n => .constInt n
  | .call f args => .call (eraseExpr f) (eraseExprList args)
  | .binop op l r => .binop op (eraseExpr l) (eraseExpr r)
/-- String-content erasure over an expression list. -/
def eraseExprList : ExprList → ExprList
  | .nil => .nil
  | .cons e es => .cons (eraseExpr e) (eraseExprList es)
end

mutual
/-- String-content erasure over a statement. -/
def eraseStmt : Stmt → Stmt
  | .exprStmt e => .exprStmt (eraseExpr e)
  | .assign targets value => .assign (eraseExprList targets) (eraseExpr value)
  | .ret e => .ret (eraseExpr e)
  | .retNone => .retNone
  | .ifS test body orelse =>
      .ifS (eraseExpr test) (eraseStmtList body) (eraseStmtList orelse)
  | .funcDef n args body l e async =>
      .funcDef n args (eraseStmtList body) l e async
/-- String-content erasure over a statement list. -/
def eraseStmtList : StmtList → StmtList
  | .nil => .nil
  | .cons s ss => .cons (eraseStmt s) (eraseStmtList ss)
end

/-- The claim-side transformation of removing a function's leading
docstring (the identity on a function without one and on non-definition
statements). -/
def removeLeadingDocstring : Stmt → Stmt
  | .funcDef n args body l e async => .funcDef n args (stripDocstring body) l e async
  | s => s

mutual
/-- Formalizes the claim-side notion of the names bound as locals or
parameters of a function: its declared parameters together with every plain
name occurring as an assignment target in its (docstring-stripped) body, in
traversal order.  The analyzer itself never computes this set; it exists
here to state the specification's numbering claim. -/
def boundIdents : Stmt → List String
  | .assign targets _ => targetNames targets
  | .ifS _ body orelse => boundIdentsList body ++ boundIdentsList orelse
  | .funcDef _ args body _ _ _ => args ++ boundIdentsStripped body
  | _ => []
def boundIdentsStripped : StmtList → List String
  | .cons (.exprStmt (.constStr _)) rest => boundIdentsList rest
  | .nil => []
  | .cons s ss => boundIdents s ++ boundIdentsList ss
def boundIdentsList : StmtList → List String
  | .nil => []
  | .cons s ss => boundIdents s ++ boundIdentsList ss
def targetNames : ExprList → List String
  | .nil => []
  | .cons (.name x) rest => x :: targetNames rest
  | .cons _ rest => targetNames rest
end

/-! Concrete fixtures used by the witnesses and counterexamples below. -/

/-- A function whose docstring is followed by another bare string literal:
the body of `def f(): "doc"; "second"; return 1`. -/
def exDocstring : Stmt :=
  .funcDef "f" []
    (.cons (.exprStmt (.constStr "doc"))
      (.cons (.exprStmt (.constStr "second"))
        (.cons (.ret (.constInt 1)) .nil))) 1 4 false

/-- A function with a docstring followed by an ordinary statement:
`def g(): "doc"; return 2`, written as its post-docstring body. -/
def exTailAfterDoc : StmtList :=
  .cons (.ret (.constInt 2)) .nil

/-- The function `def add_items(a, b): return a + b`. -/
def exAdd : Stmt :=
  .funcDef "add_items" ["a", "b"]
    (.cons (.ret (.binop "Add" (.name "a") (.name "b"))) .nil) 1 2 false

/-- A concrete injective renaming for the witness. -/
def exRenaming : String → String := fun s => "renamed_" ++ s

/-- The function `def greet(): return "hello"`. -/
def exGreet : Stmt :=
  .funcDef "greet" [] (.cons (.ret (.constStr "hello")) .nil) 1 2 false

/-- The same function with a different string-literal value. -/
def exGreet2 : Stmt :=
  .funcDef "greet" [] (.cons (.ret (.constStr "goodbye")) .nil) 1 2 false

/-- The function `def f(): g(); x = 1`, whose first traversed identifier is
the unbound call target `g` while its only bound local is `x`. -/
def exGlobalFirst : Stmt :=
  .funcDef "f" []
    (.cons (.exprStmt (.call (.name "g") .nil))
      (.cons (.assign (.cons (.name "x") .nil) (.constInt 1)) .nil)) 1 3 false

/-- Signature fixture: a 10-line function in `a.py` with digest 42. -/
def exSigA : FunctionSignature :=
  ⟨"a.py", "foo", 1, 10, ["a"], 42, 1, 10⟩

/-- Signature fixture: a structurally identical 10-line function in
`b.py`, same digest. -/
def exSigB : FunctionSignature :=
  ⟨"b.py", "bar", 1, 10, ["x"], 42, 1, 10⟩

/-- The group `find_duplicates` makes of the two fixtures above. -/
def exGroupAB : DuplicateGroup :=
  ⟨[exSigA, exSigB], 1, "foo", "/utils.py"⟩

/-- A duplicate group with members of 3 and 4 lines (total 7, an odd
total over two members). -/
def exGroupUneven : DuplicateGroup :=
  ⟨[⟨"a.py", "f", 1, 3, [], 7, 0, 3⟩, ⟨"b.py", "g", 1, 4, [], 7, 0, 4⟩], 1, "", ""⟩

/-- Three structurally identical 10-line members in three files. -/
def exGroup310 : DuplicateGroup :=
  ⟨[⟨"a.py", "h", 1, 10, [], 9, 0, 10⟩, ⟨"b.py", "h", 1, 10, [], 9, 0, 10⟩,
    ⟨"c.py", "h", 1, 10, [], 9, 0, 10⟩], 1, "", ""⟩

/-- Three same-named functions in one single file with one shared digest. -/
def exSameNameOneFile : List FunctionSignature :=
  [⟨"a.py", "foo", 1, 2, [], 5, 0, 2⟩, ⟨"a.py", "foo", 4, 5, [], 5, 0, 2⟩,
   ⟨"a.py", "foo", 7, 8, [], 5, 0, 2⟩]

/-- The filesystem view of a nonexistent root: `is_file()` is false and
`rglob` yields nothing. -/
def exMissingFS : FSModel :=
  ⟨false, false, []⟩

/-- The function `def measure(a): return len(a)`. -/
def exFuncLen : Stmt :=
  .funcDef "measure" ["a"]
    (.cons (.ret (.call (.name "len") (.cons (.name "a") .nil))) .nil) 1 2 false

/-- The function `def largest(a): return max(a)`: identical to `exFuncLen`
except for the builtin it calls. -/
def exFuncMax : Stmt :=
  .funcDef "largest" ["a"]
    (.cons (.ret (.call (.name "max") (.cons (.name "a") .nil))) .nil) 1 2 false

/-- A module containing only `exFuncLen`. -/
def exModLen : StmtList :=
  .cons exFuncLen .nil

/-- A module containing only `exFuncMax`. -/
def exModMax : StmtList :=
  .cons exFuncMax .nil

/-- The signatures the extractor produces for the two one-function files. -/
def exCloneSigs : List FunctionSignature :=
  extract_functions_from_file "a.py" (some exModLen) ++
    extract_functions_from_file "b.py" (some exModMax)

/-- The signature extracted for `exFuncLen` from `a.py`. -/
def exSigLen : FunctionSignature :=
  { file := "a.py"
    name := "measure"
    start_line := 1
    end_line := 2
    parameters := ["a"]
    body_hash := hash_function_body exFuncLen
    parameter_count := 1
    line_count := 2 }

/-- The signature extracted for `exFuncMax` from `b.py`. -/
def exSigMax : FunctionSignature :=
  { file := "b.py"
    name := "largest"
    start_line := 1
    end_line := 2
    parameters := ["a"]
    body_hash := hash_function_body exFuncMax
    parameter_count := 1
    line_count := 2 }

/-- The function `def f(): g(); h()`: two calls to distinct globals. -/
def exFuncGH : Stmt :=
  .funcDef "f" []
    (.cons (.exprStmt (.call (.name "g") .nil))
      (.cons (.exprStmt (.call (.name "h") .nil)) .nil)) 1 3 false

/-- The function `def f(): h(); h()`: obtained from `exFuncGH` by changing
only which global the first call position references, collapsing the two
distinct globals into one. -/
def exFuncHH : Stmt :=
  .funcDef "f" []
    (.cons (.exprStmt (.call (.name "h") .nil))
      (.cons (.exprStmt (.call (.name "h") .nil)) .nil)) 1 3 false

/-- The signatures the extractor produces for the two one-function files
holding `exFuncGH` and `exFuncHH`. -/
def exSwapSigs : List FunctionSignature :=
  extract_functions_from_file "a.py" (some (.cons exFuncGH .nil)) ++
    extract_functions_from_file "b.py" (some (.cons exFuncHH .nil))

/-- A renaming swapping the builtin `len` for `max` and fixing every other
name; injective on the identifiers of `exFuncLen`. -/
def exSwapLenMax : String → String :=
  fun s => if s = "len" then "max" else s

/-! From here on, theorems.  First the supporting lemmas: the fused
docstring strip, the factorization of the normalizer's state evolution
through its identifier sequence, and the closed form of the resulting
`name_map`. -/

set_option maxRecDepth 40000

/-- The fused body traversal agrees with stripping the docstring first. -/
theorem normStmtListStripped_eq (st : NormState) (body : StmtList) :
    normStmtListStripped st body = normStmtList st (stripDocstring body) := by
  cases body with
  | nil => rfl
  | cons s ss =>
      cases s with
      | exprStmt e => cases e <;> rfl
      | assign t v => rfl
      | ret e => rfl
      | retNone => rfl
      | ifS t b o => rfl
      | funcDef n a b l e async => rfl

/-- Processing a concatenated identifier sequence processes the pieces in
order. -/
theorem processIdents_append (st : NormState) (l1 l2 : List String) :
    processIdents st (l1 ++ l2) = processIdents (processIdents st l1) l2 :=
  List.foldl_append _ _ _ _

mutual
/-- The state after normalizing an expression is the initial state fed with
the expression's identifier sequence. -/
theorem normExpr_state : ∀ (e : Expr) (st : NormState),
    (normExpr st e).2 = processIdents st (exprIdents e)
  | .name x, st => rfl
  | .constStr s, st => rfl
  | .constInt n, st => rfl
  | .call f args, st => by
      simp only [normExpr, exprIdents, processIdents_append]
      rw [normExpr_state f st, normExprList_state args]
  | .binop op l r, st => by
      simp only [normExpr, exprIdents, processIdents_append]
      rw [normExpr_state l st, normExpr_state r]
/-- State evolution over an expression list. -/
theorem normExprList_state : ∀ (es : ExprList) (st : NormState),
    (normExprList st es).2 = processIdents st (exprListIdents es)
  | .nil, st => rfl
  | .cons e es, st => by
      simp only [normExprList, exprListIdents, processIdents_append]
      rw [normExpr_state e st, normExprList_state es]
end

/-- State evolution over an argument list. -/
theorem normArgs_state : ∀ (args : List String) (st : NormState),
    (normArgs st args).2 = processIdents st args
  | [], st => rfl
  | a :: rest, st => by
      simp only [normArgs]
      exact normArgs_state rest _

mutual
/-- The state after normalizing a statement is the initial state fed with
the statement's identifier sequence. -/
theorem normStmt_state : ∀ (s : Stmt) (st : NormState),
    (normStmt st s).2 = processIdents st (stmtIdents s)
  | .exprStmt e, st => normExpr_state e st
  | .assign t v, st => by
      simp only [normStmt, stmtIdents, processIdents_append]
      rw [normExprList_state t st, normExpr_state v]
  | .ret e, st => normExpr_state e st
  | .retNone, st => rfl
  | .ifS t b o, st => by
      simp only [normStmt, stmtIdents, processIdents_append]
      rw [normExpr_state t st, normStmtList_state b, normStmtList_state o]
  | .funcDef n args body l e async, st => by
      simp only [normStmt, stmtIdents, processIdents_append]
      rw [normArgs_state args st, normStmtListStripped_state body]
/-- State evolution over a docstring-stripped function body. -/
theorem normStmtListStripped_state : ∀ (body : StmtList) (st : NormState),
    (normStmtListStripped st body).2 = processIdents st (strippedIdents body)
  | .cons (.exprStmt (.constStr s)) rest, st => by
      simp only [normStmtListStripped, strippedIdents]
      exact normStmtList_state rest st
  | .nil, st => rfl
  | .cons (.exprStmt (.name x)) ss, st => by
      simp only [normStmtListStripped, strippedIdents, processIdents_append]
      rw [normStmt_state (.exprStmt (.name x)) st, normStmtList_state ss]
  | .cons (.exprStmt (.constInt n)) ss, st => by
      simp only [normStmtListStripped, strippedIdents, processIdents_append]
      rw [normStmt_state (.exprStmt (.constInt n)) st, normStmtList_state ss]
  | .cons (.exprStmt (.call f a)) ss, st => by
      simp only [normStmtListStripped, strippedIdents, processIdents_append]
      rw [normStmt_state (.exprStmt (.call f a)) st, normStmtList_state ss]
  | .cons (.exprStmt (.binop op l r)) ss, st => by
      simp only [normStmtListStripped, strippedIdents, processIdents_append]
      rw [normStmt_state (.exprStmt (.binop op l r)) st, normStmtList_state ss]
  | .cons (.assign t v) ss, st => by
      simp only [normStmtListStripped, strippedIdents, processIdents_append]
      rw [normStmt_state (.assign t v) st, normStmtList_state ss]
  | .cons (.ret e) ss, st => by
      simp only [normStmtListStripped, strippedIdents, processIdents_append]
      rw [normStmt_state (.ret e) st, normStmtList_state ss]
  | .cons .retNone ss, st => by
      simp only [normStmtListStripped, strippedIdents, processIdents_append]
      rw [normStmt_state .retNone st, normStmtList_state ss]
  | .cons (.ifS t b o) ss, st => by
      simp only [normStmtListStripped, strippedIdents, processIdents_append]
      rw [normStmt_state (.ifS t b o) st, normStmtList_state ss]
  | .cons (.funcDef n a b l e async) ss, st => by
      simp only [normStmtListStripped, strippedIdents, processIdents_append]
      rw [normStmt_state (.funcDef n a b l e async) st, normStmtList_state ss]
/-- State evolution over a statement list. -/
theorem normStmtList_state : ∀ (ss : StmtList) (st : NormState),
    (normStmtList st ss).2 = processIdents st (stmtListIdents ss)
  | .nil, st => rfl
  | .cons s ss, st => by
      simp only [normStmtList, stmtListIdents, processIdents_append]
      rw [normStmt_state s st, normStmtList_state ss]
end

/-- Names absent from the described binding list are not found. -/
theorem lookup_mapFrom_of_not_mem (x : String) : ∀ (i : Nat) (l : List String),
    x ∉ l → List.lookup x (mapFrom i l) = none
  | _, [], _ => rfl
  | i, n :: rest, h => by
      have hxn : (x == n) = false := by
        simp only [beq_eq_false_iff_ne, ne_eq]
        intro e
        exact h (e ▸ List.mem_cons_self n rest)
      simp only [mapFrom, List.lookup, hxn]
      exact lookup_mapFrom_of_not_mem x (i + 1) rest fun hm => h (List.mem_cons_of_mem n hm)

/-- A present name is bound to the variable named after its index. -/
theorem lookup_mapFrom_of_mem (x : String) : ∀ (i : Nat) (l : List String),
    x ∈ l →
    List.lookup x (mapFrom i l) = some ("var_" ++ toString (i + l.indexOf x))
  | i, [], h => absurd h (List.not_mem_nil x)
  | i, n :: rest, h => by
      by_cases hx : x = n
      · subst hx
        simp [mapFrom, List.lookup, List.indexOf_cons_self]
      · have hxn : (x == n) = false := beq_eq_false_iff_ne.mpr hx
        have hnx : (n == x) = false := beq_eq_false_iff_ne.mpr (Ne.symm hx)
        have hmem : x ∈ rest := by
          rcases List.mem_cons.mp h with h1 | h1
          · exact absurd h1 hx
          · exact h1
        have hidx : (n :: rest).indexOf x = rest.indexOf x + 1 := by
          simp [List.indexOf_cons, hnx]
        simp only [mapFrom, List.lookup, hxn,
          lookup_mapFrom_of_mem x (i + 1) rest hmem, hidx]
        have harith : i + 1 + rest.indexOf x = i + (rest.indexOf x + 1) := by omega
        rw [harith]

/-- Appending a fresh name extends the described binding list at the end. -/
theorem mapFrom_append : ∀ (i : Nat) (l : List String) (n : String),
    mapFrom i (l ++ [n]) = mapFrom i l ++ [(n, "var_" ++ toString (i + l.length))]
  | i, [], n => by simp [mapFrom]
  | i, m :: rest, n => by
      have h2 := mapFrom_append (i + 1) rest n
      have harith : i + 1 + rest.length = i + (rest.length + 1) := by omega
      show (m, "var_" ++ toString i) :: mapFrom (i + 1) (rest ++ [n]) =
        ((m, "var_" ++ toString i) :: mapFrom (i + 1) rest) ++
          [(n, "var_" ++ toString (i + (m :: rest).length))]
      rw [h2, harith]
      simp

/-- One `getNormalizedName` step turns the state for `seen` into the state
for `seen` with the name added if absent. -/
theorem getNormalizedName_stateOf (seen : List String) (n : String) :
    (getNormalizedName (stateOf seen) n).2 = stateOf (addDistinct seen n) := by
  by_cases h : n ∈ seen
  · simp [getNormalizedName, stateOf, lookup_mapFrom_of_mem n 0 seen h, addDistinct, h]
  · simp [getNormalizedName, stateOf, lookup_mapFrom_of_not_mem n 0 seen h,
      addDistinct, h, mapFrom_append]

/-- Feeding a sequence of identifiers from the state for `seen` lands on
the state for the fold of `addDistinct`. -/
theorem processIdents_stateOf : ∀ (l : List String) (seen : List String),
    processIdents (stateOf seen) l = stateOf (l.foldl addDistinct seen)
  | [], seen => rfl
  | n :: rest, seen => by
      have h1 : processIdents (stateOf seen) (n :: rest) =
          processIdents (getNormalizedName (stateOf seen) n).2 rest := rfl
      rw [h1, getNormalizedName_stateOf seen n, processIdents_stateOf rest _]
      rfl

/-- Membership in an `addDistinct` fold. -/
theorem mem_foldl_addDistinct (x : String) : ∀ (l acc : List String),
    x ∈ l.foldl addDistinct acc ↔ x ∈ acc ∨ x ∈ l
  | [], acc => by simp
  | a :: l, acc => by
      rw [List.foldl_cons, mem_foldl_addDistinct x l (addDistinct acc a)]
      by_cases h : a ∈ acc
      · simp only [addDistinct, if_pos h]
        constructor
        · rintro (h1 | h1)
          · exact Or.inl h1
          · exact Or.inr (List.mem_cons_of_mem a h1)
        · rintro (h1 | h1)
          · exact Or.inl h1
          · rcases List.mem_cons.mp h1 with h2 | h2
            · exact Or.inl (h2 ▸ h)
            · exact Or.inr h2
      · simp only [addDistinct, if_neg h]
        constructor
        · rintro (h1 | h1)
          · rcases List.mem_append.mp h1 with h2 | h2
            · exact Or.inl h2
            · exact Or.inr (List.mem_cons.mpr (Or.inl (List.mem_singleton.mp h2)))
          · exact Or.inr (List.mem_cons_of_mem a h1)
        · rintro (h1 | h1)
          · exact Or.inl (List.mem_append.mpr (Or.inl h1))
          · rcases List.mem_cons.mp h1 with h2 | h2
            · exact Or.inl (List.mem_append.mpr (Or.inr (List.mem_singleton.mpr h2)))
            · exact Or.inr h2

/-- The first-occurrence list has the same members as the original list. -/
theorem mem_firstOccur (l : List String) (x : String) :
    x ∈ firstOccur l ↔ x ∈ l := by
  simpa using mem_foldl_addDistinct x l []

/-- C2 (amended): when a function definition is canonicalized from the
fresh state, every identifier occurring in it, whether bound as a local or
parameter or not, ends up bound in the `name_map` to `var_<k>`, where `k`
is the identifier's rank in first-occurrence order among all identifiers
the traversal visits (parameters first, then the body's names); later
occurrences of the same name therefore map to the same token, and the
numbering restarts at 0 for each function because `hash_function_body`
creates a fresh normalizer. -/
theorem identifier_numbering_first_occurrence
    (n : String) (args : List String) (body : StmtList) (l e : Int)
    (async : Bool) (x : String)
    (hx : x ∈ stmtIdents (Stmt.funcDef n args body l e async)) :
    List.lookup x (normStmt ⟨[], 0⟩ (Stmt.funcDef n args body l e async)).2.name_map =
      some ("var_" ++ toString
        ((firstOccur (stmtIdents (Stmt.funcDef n args body l e async))).indexOf x)) := by
  have h0 : (⟨[], 0⟩ : NormState) = stateOf [] := rfl
  rw [normStmt_state, h0, processIdents_stateOf]
  have hmem : x ∈ firstOccur (stmtIdents (Stmt.funcDef n args body l e async)) :=
    (mem_firstOccur _ x).mpr hx
  have := lookup_mapFrom_of_mem x 0
    (firstOccur (stmtIdents (Stmt.funcDef n args body l e async))) hmem
  simpa [stateOf, firstOccur] using this

/-- C2 (counterexample to the claim as stated): in `def f(): g(); x = 1`
the only name bound as a local or parameter is `x`, so the claim predicts
the token `var_0` for it; but the normalizer numbers the unbound call
target `g` first and maps `x` to `var_1`. -/
theorem bound_rank_numbering_refuted :
    ¬ (List.lookup "x" (normStmt ⟨[], 0⟩ exGlobalFirst).2.name_map =
        some ("var_" ++ toString
          ((firstOccur (boundIdents exGlobalFirst)).indexOf "x"))) := by
  decide

/-- Witness for the amended C2 theorem at the concrete function
`def f(): g(); x = 1`: the bound name `x` is the second distinct
identifier overall, hence `var_1`. -/
theorem identifier_numbering_first_occurrence_witness :
    List.lookup "x" (normStmt ⟨[], 0⟩ exGlobalFirst).2.name_map =
      some ("var_" ++ toString
        ((firstOccur (stmtIdents exGlobalFirst)).indexOf "x")) :=
  identifier_numbering_first_occurrence "f" []
    (.cons (.exprStmt (.call (.name "g") .nil))
      (.cons (.assign (.cons (.name "x") .nil) (.constInt 1)) .nil)) 1 3 false
    "x" (by decide)

/-! Renaming invariance.  The normalizer's state on a renamed tree is the
`mapSt` image of its state on the original tree, provided the renaming is
injective on the identifiers actually traversed; the produced trees are
then identical. -/

/-- A `getNormalizedName` step can only add the processed name to the
map's keys. -/
theorem keys_getNormalizedName (st : NormState) (a k : String)
    (h : k ∈ (getNormalizedName st a).2.name_map.map Prod.fst) :
    k ∈ st.name_map.map Prod.fst ∨ k = a := by
  cases hl : List.lookup a st.name_map with
  | some v =>
      simp only [getNormalizedName, hl] at h
      exact Or.inl h
  | none =>
      simp only [getNormalizedName, hl, List.map_append, List.map_cons,
        List.map_nil, List.mem_append, List.mem_singleton] at h
      exact h

/-- Processing identifiers only adds those identifiers to the keys. -/
theorem keys_processIdents : ∀ (l : List String) (st : NormState) (k : String),
    k ∈ (processIdents st l).name_map.map Prod.fst →
    k ∈ st.name_map.map Prod.fst ∨ k ∈ l
  | [], _, _, h => Or.inl h
  | a :: l, st, k, h => by
      have h2 := keys_processIdents l (getNormalizedName st a).2 k h
      rcases h2 with h2 | h2
      · rcases keys_getNormalizedName st a k h2 with h3 | h3
        · exact Or.inl h3
        · exact Or.inr (by simp [h3])
      · exact Or.inr (List.mem_cons_of_mem a h2)

/-- The keys reached after normalizing an expression stay inside any name
set containing the initial keys and the expression's identifiers. -/
theorem keys_after_normExpr (S : List String) (e : Expr) (st : NormState)
    (hk : ∀ k ∈ st.name_map.map Prod.fst, k ∈ S)
    (hi : ∀ x ∈ exprIdents e, x ∈ S) :
    ∀ k ∈ (normExpr st e).2.name_map.map Prod.fst, k ∈ S := by
  intro k hkm
  rw [normExpr_state e st] at hkm
  rcases keys_processIdents (exprIdents e) st k hkm with h1 | h1
  · exact hk k h1
  · exact hi k h1

/-- Key containment after an expression list. -/
theorem keys_after_normExprList (S : List String) (es : ExprList) (st : NormState)
    (hk : ∀ k ∈ st.name_map.map Prod.fst, k ∈ S)
    (hi : ∀ x ∈ exprListIdents es, x ∈ S) :
    ∀ k ∈ (normExprList st es).2.name_map.map Prod.fst, k ∈ S := by
  intro k hkm
  rw [normExprList_state es st] at hkm
  rcases keys_processIdents (exprListIdents es) st k hkm with h1 | h1
  · exact hk k h1
  · exact hi k h1

/-- Key containment after a statement. -/
theorem keys_after_normStmt (S : List String) (s : Stmt) (st : NormState)
    (hk : ∀ k ∈ st.name_map.map Prod.fst, k ∈ S)
    (hi : ∀ x ∈ stmtIdents s, x ∈ S) :
    ∀ k ∈ (normStmt st s).2.name_map.map Prod.fst, k ∈ S := by
  intro k hkm
  rw [normStmt_state s st] at hkm
  rcases keys_processIdents (stmtIdents s) st k hkm with h1 | h1
  · exact hk k h1
  · exact hi k h1

/-- Key containment after a statement list. -/
theorem keys_after_normStmtList (S : List String) (ss : StmtList) (st : NormState)
    (hk : ∀ k ∈ st.name_map.map Prod.fst, k ∈ S)
    (hi : ∀ x ∈ stmtListIdents ss, x ∈ S) :
    ∀ k ∈ (normStmtList st ss).2.name_map.map Prod.fst, k ∈ S := by
  intro k hkm
  rw [normStmtList_state ss st] at hkm
  rcases keys_processIdents (stmtListIdents ss) st k hkm with h1 | h1
  · exact hk k h1
  · exact hi k h1

/-- Key containment after an argument list. -/
theorem keys_after_normArgs (S : List String) (args : List String) (st : NormState)
    (hk : ∀ k ∈ st.name_map.map Prod.fst, k ∈ S)
    (hi : ∀ x ∈ args, x ∈ S) :
    ∀ k ∈ (normArgs st args).2.name_map.map Prod.fst, k ∈ S := by
  intro k hkm
  rw [normArgs_state args st] at hkm
  rcases keys_processIdents args st k hkm with h1 | h1
  · exact hk k h1
  · exact hi k h1

/-- Looking a renamed name up in the renamed map is looking the name up in
the original map, provided the renaming identifies no present key with the
name. -/
theorem lookup_rename (σ : String → String) (x : String) :
    ∀ (m : List (String × String)),
    (∀ k ∈ m.map Prod.fst, σ k = σ x → k = x) →
    List.lookup (σ x) (m.map (fun p => (σ p.1, p.2))) = List.lookup x m
  | [], _ => rfl
  | (k, v) :: m, h => by
      by_cases hk : k = x
      · subst hk
        simp [List.lookup]
      · have h1 : σ x ≠ σ k := fun he => hk (h k (by simp) he.symm)
        have hbeq : (σ x == σ k) = false := beq_eq_false_iff_ne.mpr h1
        have hbeq2 : (x == k) = false := beq_eq_false_iff_ne.mpr (Ne.symm hk)
        simp only [List.map_cons, List.lookup, hbeq, hbeq2]
        exact lookup_rename σ x m fun k2 hk2 he => h k2 (by simp [hk2]) he

/-- One normalizer step commutes with an injective-on-the-keys renaming. -/
theorem getNormalizedName_rename (σ : String → String) (st : NormState) (x : String)
    (h : ∀ k ∈ st.name_map.map Prod.fst, σ k = σ x → k = x) :
    getNormalizedName (mapSt σ st) (σ x) =
      ((getNormalizedName st x).1, mapSt σ (getNormalizedName st x).2) := by
  simp only [getNormalizedName, mapSt]
  rw [lookup_rename σ x st.name_map h]
  cases hl : List.lookup x st.name_map with
  | some v => simp [hl]
  | none => simp [hl, List.map_append]

mutual
/-- Normalizing a renamed expression from the renamed state produces the
same tree as normalizing the original, with the renamed resulting state. -/
theorem renameNormExpr (σ : String → String) (S : List String)
    (HS : ∀ a ∈ S, ∀ b ∈ S, σ a = σ b → a = b) :
    ∀ (e : Expr) (st : NormState),
    (∀ k ∈ st.name_map.map Prod.fst, k ∈ S) →
    (∀ x ∈ exprIdents e, x ∈ S) →
    normExpr (mapSt σ st) (renameExpr σ e) =
      ((normExpr st e).1, mapSt σ (normExpr st e).2)
  | .name x, st, hk, hi => by
      have hx : x ∈ S := hi x (by simp [exprIdents])
      have h : ∀ k ∈ st.name_map.map Prod.fst, σ k = σ x → k = x :=
        fun k hkm he => HS k (hk k hkm) x hx he
      simp only [renameExpr, normExpr]
      rw [getNormalizedName_rename σ st x h]
  | .constStr _, _, _, _ => rfl
  | .constInt _, _, _, _ => rfl
  | .call f args, st, hk, hi => by
      have hif : ∀ x ∈ exprIdents f, x ∈ S :=
        fun x hx => hi x (by simp [exprIdents, hx])
      have hia : ∀ x ∈ exprListIdents args, x ∈ S :=
        fun x hx => hi x (by simp [exprIdents, hx])
      have h1 := renameNormExpr σ S HS f st hk hif
      have h2 := renameNormExprList σ S HS args (normExpr st f).2
        (keys_after_normExpr S f st hk hif) hia
      simp only [renameExpr, normExpr, h1, h2]
  | .binop op l r, st, hk, hi => by
      have hil : ∀ x ∈ exprIdents l, x ∈ S :=
        fun x hx => hi x (by simp [exprIdents, hx])
      have hir : ∀ x ∈ exprIdents r, x ∈ S :=
        fun x hx => hi x (by simp [exprIdents, hx])
      have h1 := renameNormExpr σ S HS l st hk hil
      have h2 := renameNormExpr σ S HS r (normExpr st l).2
        (keys_after_normExpr S l st hk hil) hir
      simp only [renameExpr, normExpr, h1, h2]
/-- Renaming commutation over an expression list. -/
theorem renameNormExprList (σ : String → String) (S : List String)
    (HS : ∀ a ∈ S, ∀ b ∈ S, σ a = σ b → a = b) :
    ∀ (es : ExprList) (st : NormState),
    (∀ k ∈ st.name_map.map Prod.fst, k ∈ S) →
    (∀ x ∈ exprListIdents es, x ∈ S) →
    normExprList (mapSt σ st) (renameExprList σ es) =
      ((normExprList st es).1, mapSt σ (normExprList st es).2)
  | .nil, _, _, _ => rfl
  | .cons e es, st, hk, hi => by
      have hie : ∀ x ∈ exprIdents e, x ∈ S :=
        fun x hx => hi x (by simp [exprListIdents, hx])
      have hies : ∀ x ∈ exprListIdents es, x ∈ S :=
        fun x hx => hi x (by simp [exprListIdents, hx])
      have h1 := renameNormExpr σ S HS e st hk hie
      have h2 := renameNormExprList σ S HS es (normExpr st e).2
        (keys_after_normExpr S e st hk hie) hies
      simp only [renameExprList, normExprList, h1, h2]
end

/-- Renaming commutation over an argument list. -/
theorem renameNormArgs (σ : String → String) (S : List String)
    (HS : ∀ a ∈ S, ∀ b ∈ S, σ a = σ b → a = b) :
    ∀ (args : List String) (st : NormState),
    (∀ k ∈ st.name_map.map Prod.fst, k ∈ S) →
    (∀ x ∈ args, x ∈ S) →
    normArgs (mapSt σ st) (args.map σ) =
      ((normArgs st args).1, mapSt σ (normArgs st args).2)
  | [], _, _, _ => rfl
  | a :: rest, st, hk, hi => by
      have ha : a ∈ S := hi a (by simp)
      have h : ∀ k ∈ st.name_map.map Prod.fst, σ k = σ a → k = a :=
        fun k hkm he => HS k (hk k hkm) a ha he
      have h1 := getNormalizedName_rename σ st a h
      have hk2 : ∀ k ∈ (getNormalizedName st a).2.name_map.map Prod.fst, k ∈ S := by
        intro k hkm
        rcases keys_getNormalizedName st a k hkm with h2 | h2
        · exact hk k h2
        · exact h2 ▸ ha
      have h2 := renameNormArgs σ S HS rest (getNormalizedName st a).2 hk2
        fun x hx => hi x (by simp [hx])
      simp only [List.map_cons, normArgs, h1, h2]

mutual
/-- Normalizing a renamed statement from the renamed state produces the
same tree as normalizing the original, with the renamed resulting state. -/
theorem renameNormStmt (σ : String → String) (S : List String)
    (HS : ∀ a ∈ S, ∀ b ∈ S, σ a = σ b → a = b) :
    ∀ (s : Stmt) (st : NormState),
    (∀ k ∈ st.name_map.map Prod.fst, k ∈ S) →
    (∀ x ∈ stmtIdents s, x ∈ S) →
    normStmt (mapSt σ st) (renameStmt σ s) =
      ((normStmt st s).1, mapSt σ (normStmt st s).2)
  | .exprStmt e, st, hk, hi => by
      have h1 := renameNormExpr σ S HS e st hk hi
      simp only [renameStmt, normStmt, h1]
  | .assign t v, st, hk, hi => by
      have hit : ∀ x ∈ exprListIdents t, x ∈ S :=
        fun x hx => hi x (by simp [stmtIdents, hx])
      have hiv : ∀ x ∈ exprIdents v, x ∈ S :=
        fun x hx => hi x (by simp [stmtIdents, hx])
      have h1 := renameNormExprList σ S HS t st hk hit
      have h2 := renameNormExpr σ S HS v (normExprList st t).2
        (keys_after_normExprList S t st hk hit) hiv
      simp only [renameStmt, normStmt, h1, h2]
  | .ret e, st, hk, hi => by
      have h1 := renameNormExpr σ S HS e st hk hi
      simp only [renameStmt, normStmt, h1]
  | .retNone, _, _, _ => rfl
  | .ifS t b o, st, hk, hi => by
      have hit : ∀ x ∈ exprIdents t, x ∈ S :=
        fun x hx => hi x (by simp [stmtIdents, hx])
      have hib : ∀ x ∈ stmtListIdents b, x ∈ S :=
        fun x hx => hi x (by simp [stmtIdents, hx])
      have hio : ∀ x ∈ stmtListIdents o, x ∈ S :=
        fun x hx => hi x (by simp [stmtIdents, hx])
      have h1 := renameNormExpr σ S HS t st hk hit
      have h2 := renameNormStmtList σ S HS b (normExpr st t).2
        (keys_after_normExpr S t st hk hit) hib
      have h3 := renameNormStmtList σ S HS o (normStmtList (normExpr st t).2 b).2
        (keys_after_normStmtList S b (normExpr st t).2
          (keys_after_normExpr S t st hk hit) hib) hio
      simp only [renameStmt, normStmt, h1, h2, h3]
  | .funcDef n args body l e async, st, hk, hi => by
      have hia : ∀ x ∈ args, x ∈ S :=
        fun x hx => hi x (by simp [stmtIdents, hx])
      have hib : ∀ x ∈ strippedIdents body, x ∈ S :=
        fun x hx => hi x (by simp [stmtIdents, hx])
      have h1 := renameNormArgs σ S HS args st hk hia
      have h2 := renameNormStripped σ S HS body (normArgs st args).2
        (keys_after_normArgs S args st hk hia) hib
      simp only [renameStmt, normStmt, h1, h2]
/-- Renaming commutation over a docstring-stripped function body. -/
theorem renameNormStripped (σ : String → String) (S : List String)
    (HS : ∀ a ∈ S, ∀ b ∈ S, σ a = σ b → a = b) :
    ∀ (body : StmtList) (st : NormState),
    (∀ k ∈ st.name_map.map Prod.fst, k ∈ S) →
    (∀ x ∈ strippedIdents body, x ∈ S) →
    normStmtListStripped (mapSt σ st) (renameStmtList σ body) =
      ((normStmtListStripped st body).1, mapSt σ (normStmtListStripped st body).2)
  | .cons (.exprStmt (.constStr s)) rest, st, hk, hi => by
      have h1 := renameNormStmtList σ S HS rest st hk
        fun x hx => hi x (by simp [strippedIdents, hx])
      simp only [renameStmtList, renameStmt, renameExpr, normStmtListStripped, h1]
  | .nil, _, _, _ => rfl
  | .cons (.exprStmt (.name y)) ss, st, hk, hi => by
      have hih : ∀ x ∈ stmtIdents (.exprStmt (.name y)), x ∈ S :=
        fun x hx => hi x (by simp [strippedIdents, hx])
      have hit : ∀ x ∈ stmtListIdents ss, x ∈ S :=
        fun x hx => hi x (by simp [strippedIdents, hx])
      have h1 := renameNormStmt σ S HS (.exprStmt (.name y)) st hk hih
      simp only [renameStmt, renameExpr] at h1
      have h2 := renameNormStmtList σ S HS ss (normStmt st (.exprStmt (.name y))).2
        (keys_after_normStmt S (.exprStmt (.name y)) st hk hih) hit
      simp only [renameStmtList, renameStmt, renameExpr, normStmtListStripped, h1, h2]
  | .cons (.exprStmt (.constInt m)) ss, st, hk, hi => by
      have hih : ∀ x ∈ stmtIdents (.exprStmt (.constInt m)), x ∈ S :=
        fun x hx => hi x (by simp [strippedIdents, hx])
      have hit : ∀ x ∈ stmtListIdents ss, x ∈ S :=
        fun x hx => hi x (by simp [strippedIdents, hx])
      have h1 := renameNormStmt σ S HS (.exprStmt (.constInt m)) st hk hih
      simp only [renameStmt, renameExpr] at h1
      have h2 := renameNormStmtList σ S HS ss (normStmt st (.exprStmt (.constInt m))).2
        (keys_after_normStmt S (.exprStmt (.constInt m)) st hk hih) hit
      simp only [renameStmtList, renameStmt, renameExpr, normStmtListStripped, h1, h2]
  | .cons (.exprStmt (.call f a)) ss, st, hk, hi => by
      have hih : ∀ x ∈ stmtIdents (.exprStmt (.call f a)), x ∈ S :=
        fun x hx => hi x (by simp [strippedIdents, hx])
      have hit : ∀ x ∈ stmtListIdents ss, x ∈ S :=
        fun x hx => hi x (by simp [strippedIdents, hx])
      have h1 := renameNormStmt σ S HS (.exprStmt (.call f a)) st hk hih
      simp only [renameStmt, renameExpr] at h1
      have h2 := renameNormStmtList σ S HS ss (normStmt st (.exprStmt (.call f a))).2
        (keys_after_normStmt S (.exprStmt (.call f a)) st hk hih) hit
      simp only [renameStmtList, renameStmt, renameExpr, normStmtListStripped, h1, h2]
  | .cons (.exprStmt (.binop op el er)) ss, st, hk, hi => by
      have hih : ∀ x ∈ stmtIdents (.exprStmt (.binop op el er)), x ∈ S :=
        fun x hx => hi x (by simp [strippedIdents, hx])
      have hit : ∀ x ∈ stmtListIdents ss, x ∈ S :=
        fun x hx => hi x (by simp [strippedIdents, hx])
      have h1 := renameNormStmt σ S HS (.exprStmt (.binop op el er)) st hk hih
      simp only [renameStmt, renameExpr] at h1
      have h2 := renameNormStmtList σ S HS ss
        (normStmt st (.exprStmt (.binop op el er))).2
        (keys_after_normStmt S (.exprStmt (.binop op el er)) st hk hih) hit
      simp only [renameStmtList, renameStmt, renameExpr, normStmtListStripped, h1, h2]
  | .cons (.assign t v) ss, st, hk, hi => by
      have hih : ∀ x ∈ stmtIdents (.assign t v), x ∈ S :=
        fun x hx => hi x (by simp [strippedIdents, hx])
      have hit : ∀ x ∈ stmtListIdents ss, x ∈ S :=
        fun x hx => hi x (by simp [strippedIdents, hx])
      have h1 := renameNormStmt σ S HS (.assign t v) st hk hih
      simp only [renameStmt] at h1
      have h2 := renameNormStmtList σ S HS ss (normStmt st (.assign t v)).2
        (keys_after_normStmt S (.assign t v) st hk hih) hit
      simp only [renameStmtList, renameStmt, normStmtListStripped, h1, h2]
  | .cons (.ret e) ss, st, hk, hi => by
      have hih : ∀ x ∈ stmtIdents (.ret e), x ∈ S :=
        fun x hx => hi x (by simp [strippedIdents, hx])
      have hit : ∀ x ∈ stmtListIdents ss, x ∈ S :=
        fun x hx => hi x (by simp [strippedIdents, hx])
      have h1 := renameNormStmt σ S HS (.ret e) st hk hih
      simp only [renameStmt] at h1
      have h2 := renameNormStmtList σ S HS ss (normStmt st (.ret e)).2
        (keys_after_normStmt S (.ret e) st hk hih) hit
      simp only [renameStmtList, renameStmt, normStmtListStripped, h1, h2]
  | .cons .retNone ss, st, hk, hi => by
      have hih : ∀ x ∈ stmtIdents .retNone, x ∈ S :=
        fun x hx => hi x (by simp [strippedIdents, hx])
      have hit : ∀ x ∈ stmtListIdents ss, x ∈ S :=
        fun x hx => hi x (by simp [strippedIdents, hx])
      have h1 := renameNormStmt σ S HS .retNone st hk hih
      simp only [renameStmt] at h1
      have h2 := renameNormStmtList σ S HS ss (normStmt st .retNone).2
        (keys_after_normStmt S .retNone st hk hih) hit
      simp only [renameStmtList, renameStmt, normStmtListStripped, h1, h2]
  | .cons (.ifS t b o) ss, st, hk, hi => by
      have hih : ∀ x ∈ stmtIdents (.ifS t b o), x ∈ S :=
        fun x hx => hi x (by simp [strippedIdents, hx])
      have hit : ∀ x ∈ stmtListIdents ss, x ∈ S :=
        fun x hx => hi x (by simp [strippedIdents, hx])
      have h1 := renameNormStmt σ S HS (.ifS t b o) st hk hih
      simp only [renameStmt] at h1
      have h2 := renameNormStmtList σ S HS ss (normStmt st (.ifS t b o)).2
        (keys_after_normStmt S (.ifS t b o) st hk hih) hit
      simp only [renameStmtList, renameStmt, normStmtListStripped, h1, h2]
  | .cons (.funcDef n a b l e async) ss, st, hk, hi => by
      have hih : ∀ x ∈ stmtIdents (.funcDef n a b l e async), x ∈ S :=
        fun x hx => hi x (by simp [strippedIdents, hx])
      have hit : ∀ x ∈ stmtListIdents ss, x ∈ S :=
        fun x hx => hi x (by simp [strippedIdents, hx])
      have h1 := renameNormStmt σ S HS (.funcDef n a b l e async) st hk hih
      simp only [renameStmt] at h1
      have h2 := renameNormStmtList σ S HS ss
        (normStmt st (.funcDef n a b l e async)).2
        (keys_after_normStmt S (.funcDef n a b l e async) st hk hih) hit
      simp only [renameStmtList, renameStmt, normStmtListStripped, h1, h2]
/-- Renaming commutation over a statement list. -/
theorem renameNormStmtList (σ : String → String) (S : List String)
    (HS : ∀ a ∈ S, ∀ b ∈ S, σ a = σ b → a = b) :
    ∀ (ss : StmtList) (st : NormState),
    (∀ k ∈ st.name_map.map Prod.fst, k ∈ S) →
    (∀ x ∈ stmtListIdents ss, x ∈ S) →
    normStmtList (mapSt σ st) (renameStmtList σ ss) =
      ((normStmtList st ss).1, mapSt σ (normStmtList st ss).2)
  | .nil, _, _, _ => rfl
  | .cons s ss, st, hk, hi => by
      have hih : ∀ x ∈ stmtIdents s, x ∈ S :=
        fun x hx => hi x (by simp [stmtListIdents, hx])
      have hit : ∀ x ∈ stmtListIdents ss, x ∈ S :=
        fun x hx => hi x (by simp [stmtListIdents, hx])
      have h1 := renameNormStmt σ S HS s st hk hih
      have h2 := renameNormStmtList σ S HS ss (normStmt st s).2
        (keys_after_normStmt S s st hk hih) hit
      simp only [renameStmtList, normStmtList, h1, h2]
end

/-! String-content erasure is invisible to the normalizer: every string
constant becomes `str_const` anyway and the state never depends on string
values. -/

mutual
/-- Normalizing an erased expression equals normalizing the original. -/
theorem eraseNormExpr : ∀ (e : Expr) (st : NormState),
    normExpr st (eraseExpr e) = normExpr st e
  | .name _, _ => rfl
  | .constStr _, _ => rfl
  | .constInt _, _ => rfl
  | .call f args, st => by
      have h1 := eraseNormExpr f st
      have h2 := eraseNormExprList args (normExpr st f).2
      simp only [eraseExpr, normExpr, h1, h2]
  | .binop op l r, st => by
      have h1 := eraseNormExpr l st
      have h2 := eraseNormExpr r (normExpr st l).2
      simp only [eraseExpr, normExpr, h1, h2]
/-- Erasure invariance over an expression list. -/
theorem eraseNormExprList : ∀ (es : ExprList) (st : NormState),
    normExprList st (eraseExprList es) = normExprList st es
  | .nil, _ => rfl
  | .cons e es, st => by
      have h1 := eraseNormExpr e st
      have h2 := eraseNormExprList es (normExpr st e).2
      simp only [eraseExprList, normExprList, h1, h2]
end

mutual
/-- Normalizing an erased statement equals normalizing the original. -/
theorem eraseNormStmt : ∀ (s : Stmt) (st : NormState),
    normStmt st (eraseStmt s) = normStmt st s
  | .exprStmt e, st => by
      have h1 := eraseNormExpr e st
      simp only [eraseStmt, normStmt, h1]
  | .assign t v, st => by
      have h1 := eraseNormExprList t st
      have h2 := eraseNormExpr v (normExprList st t).2
      simp only [eraseStmt, normStmt, h1, h2]
  | .ret e, st => by
      have h1 := eraseNormExpr e st
      simp only [eraseStmt, normStmt, h1]
  | .retNone, _ => rfl
  | .ifS t b o, st => by
      have h1 := eraseNormExpr t st
      have h2 := eraseNormStmtList b (normExpr st t).2
      have h3 := eraseNormStmtList o (normStmtList (normExpr st t).2 b).2
      simp only [eraseStmt, normStmt, h1, h2, h3]
  | .funcDef n args body l e async, st => by
      have h2 := eraseNormStripped body (normArgs st args).2
      simp only [eraseStmt, normStmt, h2]
/-- Erasure invariance over a docstring-stripped function body: the erased
head of a docstring is still a bare string literal, so both sides strip. -/
theorem eraseNormStripped : ∀ (body : StmtList) (st : NormState),
    normStmtListStripped st (eraseStmtList body) = normStmtListStripped st body
  | .cons (.exprStmt (.constStr s)) rest, st => by
      have h1 := eraseNormStmtList rest st
      simp only [eraseStmtList, eraseStmt, eraseExpr, normStmtListStripped, h1]
  | .nil, _ => rfl
  | .cons (.exprStmt (.name y)) ss, st => by
      have h1 := eraseNormStmt (.exprStmt (.name y)) st
      simp only [eraseStmt, eraseExpr] at h1
      have h2 := eraseNormStmtList ss (normStmt st (.exprStmt (.name y))).2
      simp only [eraseStmtList, eraseStmt, eraseExpr, normStmtListStripped, h1, h2]
  | .cons (.exprStmt (.constInt m)) ss, st => by
      have h1 := eraseNormStmt (.exprStmt (.constInt m)) st
      simp only [eraseStmt, eraseExpr] at h1
      have h2 := eraseNormStmtList ss (normStmt st (.exprStmt (.constInt m))).2
      simp only [eraseStmtList, eraseStmt, eraseExpr, normStmtListStripped, h1, h2]
  | .cons (.exprStmt (.call f a)) ss, st => by
      have h1 := eraseNormStmt (.exprStmt (.call f a)) st
      simp only [eraseStmt, eraseExpr] at h1
      have h2 := eraseNormStmtList ss (normStmt st (.exprStmt (.call f a))).2
      simp only [eraseStmtList, eraseStmt, eraseExpr, normStmtListStripped, h1, h2]
  | .cons (.exprStmt (.binop op el er)) ss, st => by
      have h1 := eraseNormStmt (.exprStmt (.binop op el er)) st
      simp only [eraseStmt, eraseExpr] at h1
      have h2 := eraseNormStmtList ss (normStmt st (.exprStmt (.binop op el er))).2
      simp only [eraseStmtList, eraseStmt, eraseExpr, normStmtListStripped, h1, h2]
  | .cons (.assign t v) ss, st => by
      have h1 := eraseNormStmt (.assign t v) st
      simp only [eraseStmt] at h1
      have h2 := eraseNormStmtList ss (normStmt st (.assign t v)).2
      simp only [eraseStmtList, eraseStmt, normStmtListStripped, h1, h2]
  | .cons (.ret e) ss, st => by
      have h1 := eraseNormStmt (.ret e) st
      simp only [eraseStmt] at h1
      have h2 := eraseNormStmtList ss (normStmt st (.ret e)).2
      simp only [eraseStmtList, eraseStmt, normStmtListStripped, h1, h2]
  | .cons .retNone ss, st => by
      have h2 := eraseNormStmtList ss (normStmt st .retNone).2
      simp only [eraseStmtList, eraseStmt, normStmtListStripped, h2]
  | .cons (.ifS t b o) ss, st => by
      have h1 := eraseNormStmt (.ifS t b o) st
      simp only [eraseStmt] at h1
      have h2 := eraseNormStmtList ss (normStmt st (.ifS t b o)).2
      simp only [eraseStmtList, eraseStmt, normStmtListStripped, h1, h2]
  | .cons (.funcDef n a b l e async) ss, st => by
      have h1 := eraseNormStmt (.funcDef n a b l e async) st
      simp only [eraseStmt] at h1
      have h2 := eraseNormStmtList ss (normStmt st (.funcDef n a b l e async)).2
      simp only [eraseStmtList, eraseStmt, normStmtListStripped, h1, h2]
/-- Erasure invariance over a statement list. -/
theorem eraseNormStmtList : ∀ (ss : StmtList) (st : NormState),
    normStmtList st (eraseStmtList ss) = normStmtList st ss
  | .nil, _ => rfl
  | .cons s ss, st => by
      have h1 := eraseNormStmt s st
      have h2 := eraseNormStmtList ss (normStmt st s).2
      simp only [eraseStmtList, normStmtList, h1, h2]
end

/-- On a body that does not start with a bare string literal the fused
traversal coincides with the plain one. -/
theorem normStmtListStripped_of_not_docstring (st : NormState) (b : StmtList)
    (h : startsWithBareStr b = false) :
    normStmtListStripped st b = normStmtList st b := by
  cases b with
  | nil => rfl
  | cons s ss =>
      cases s with
      | exprStmt e =>
          cases e with
          | constStr s2 => simp [startsWithBareStr] at h
          | name y => rfl
          | constInt m => rfl
          | call f a => rfl
          | binop op el er => rfl
      | assign t v => rfl
      | ret e => rfl
      | retNone => rfl
      | ifS t b2 o => rfl
      | funcDef n a b2 l e async => rfl

/-- C1 (amended): canonicalization invariance.  For every function
definition: renaming its identifiers by any map injective on the
identifiers it uses (which covers consistently renaming its locals and
parameters without capturing another used name) preserves the digest;
changing only string-literal contents (same erasure) preserves the digest;
and removing a leading docstring preserves the digest provided the
statement after the docstring is not itself a bare string-literal
expression, independent of line positions. -/
theorem canonicalization_invariance_amended :
    (∀ (n : String) (args : List String) (body : StmtList) (l e : Int)
        (async : Bool) (σ : String → String),
      (∀ a ∈ stmtIdents (Stmt.funcDef n args body l e async),
       ∀ b ∈ stmtIdents (Stmt.funcDef n args body l e async),
        σ a = σ b → a = b) →
      hash_function_body (renameStmt σ (Stmt.funcDef n args body l e async)) =
        hash_function_body (Stmt.funcDef n args body l e async)) ∧
    (∀ f g : Stmt, eraseStmt f = eraseStmt g →
      hash_function_body f = hash_function_body g) ∧
    (∀ (n : String) (args : List String) (s : String) (rest : StmtList)
        (l e l2 e2 : Int) (async : Bool),
      startsWithBareStr rest = false →
      hash_function_body (Stmt.funcDef n args
          (StmtList.cons (Stmt.exprStmt (Expr.constStr s)) rest) l e async) =
        hash_function_body (Stmt.funcDef n args rest l2 e2 async)) := by
  refine ⟨?_, ?_, ?_⟩
  · intro n args body l e async σ hinj
    have key := renameNormStmt σ
      (stmtIdents (Stmt.funcDef n args body l e async)) hinj
      (Stmt.funcDef n args body l e async) ⟨[], 0⟩
      (fun k hk => absurd hk (List.not_mem_nil k)) (fun x hx => hx)
    have h0 : mapSt σ (⟨[], 0⟩ : NormState) = ⟨[], 0⟩ := rfl
    rw [h0] at key
    simp only [hash_function_body, normalize_ast, key]
  · intro f g h
    have hf := eraseNormStmt f ⟨[], 0⟩
    have hg := eraseNormStmt g ⟨[], 0⟩
    have key : normStmt ⟨[], 0⟩ f = normStmt ⟨[], 0⟩ g := by
      rw [← hf, ← hg, h]
    simp only [hash_function_body, normalize_ast, key]
  · intro n args s rest l e l2 e2 async h
    simp only [hash_function_body, normalize_ast, normStmt,
      normStmtListStripped, normStmtListStripped_of_not_docstring _ rest h,
      dumpStmt]

/-- C1 (counterexample to the claim as stated): for
`def f(): "doc"; "second"; return 1` the canonicalizer strips the
docstring and then treats `"second"` as the new leading docstring of the
docstring-free copy, so removing the docstring changes the digest. -/
theorem docstring_removal_changes_hash :
    hash_function_body (removeLeadingDocstring exDocstring) ≠
      hash_function_body exDocstring := by
  decide

/-- Witness for the amended C1 theorem: a renamed two-parameter adder, a
string-literal change, and a docstring removal whose following statement is
an ordinary return. -/
theorem canonicalization_invariance_amended_witness :
    hash_function_body (renameStmt exRenaming exAdd) = hash_function_body exAdd ∧
    hash_function_body exGreet = hash_function_body exGreet2 ∧
    hash_function_body (Stmt.funcDef "g" []
        (StmtList.cons (Stmt.exprStmt (Expr.constStr "doc")) exTailAfterDoc)
        1 3 false) =
      hash_function_body (Stmt.funcDef "g" [] exTailAfterDoc 2 3 false) :=
  ⟨canonicalization_invariance_amended.1 "add_items" ["a", "b"]
      (.cons (.ret (.binop "Add" (.name "a") (.name "b"))) .nil) 1 2 false
      exRenaming (by decide),
   canonicalization_invariance_amended.2.1 exGreet exGreet2 rfl,
   canonicalization_invariance_amended.2.2 "g" [] "doc" exTailAfterDoc
      1 3 2 3 false (by decide)⟩

/-- C10 (counterexample to the claim as stated): `def f(): g(); h()` and
`def f(): h(); h()` differ only in which global name the first call
position references, yet the first normalizes its two distinct globals to
different synthetic tokens while the second reuses one, so the digests
differ and `find_duplicates` forms no clone group from them. -/
theorem global_swap_not_universal :
    hash_function_body exFuncGH ≠ hash_function_body exFuncHH ∧
    find_duplicates exSwapSigs 1 1 = [] := by
  exact ⟨by decide, by decide⟩

/-- C5: the similarity threshold is accepted through the whole call chain
but never read, so any two threshold values produce identical grouping and
identical overall analyses. -/
theorem find_duplicates_threshold_irrelevant :
    (∀ (functions : List FunctionSignature) (min_lines : Int) (t1 t2 : ℚ),
      find_duplicates functions t1 min_lines =
        find_duplicates functions t2 min_lines) ∧
    (∀ (root : String) (fs : FSModel) (min_lines : Int) (t1 t2 : ℚ),
      analyze_project root fs min_lines t1 =
        analyze_project root fs min_lines t2) :=
  ⟨fun _ _ _ _ => rfl, fun _ _ _ _ _ => rfl⟩

/-- C4 (counterexample to the claim as stated): for a group of a 3-line
and a 4-line member, `potential_savings` is `7 - 7 fdiv 2 = 4`, while total
minus the exact average is `7 - 7 over 2`, which is not 4. -/
theorem potential_savings_not_exact_average :
    ¬ ((exGroupUneven.potential_savings : ℚ) =
        (exGroupUneven.total_lines : ℚ) -
          (exGroupUneven.total_lines : ℚ) / (exGroupUneven.count : ℚ)) := by
  have h1 : exGroupUneven.potential_savings = 4 := by decide
  have h2 : exGroupUneven.total_lines = 7 := by decide
  have h3 : exGroupUneven.count = 2 := by decide
  rw [h1, h2, h3]
  push_cast
  norm_num

/-- C4 (amended): `potential_savings` is `total_lines` minus the floored
integer average `total_lines fdiv count` when the group has more than one
member, and 0 otherwise; in particular three 10-line members yield 20. -/
theorem potential_savings_integer_average :
    (∀ g : DuplicateGroup,
      (1 < g.count →
        g.potential_savings =
          g.total_lines - Int.fdiv g.total_lines (g.count : Int)) ∧
      (g.count ≤ 1 → g.potential_savings = 0)) ∧
    exGroup310.potential_savings = 20 := by
  constructor
  · intro g
    constructor
    · intro h
      have h2 : ¬ g.count ≤ 1 := by omega
      simp [DuplicateGroup.potential_savings, h2]
    · intro h
      simp [DuplicateGroup.potential_savings, h]
  · decide

/-- Witness for the amended C4 theorem at the 3-and-4-line group. -/
theorem potential_savings_integer_average_witness :
    exGroupUneven.potential_savings =
      exGroupUneven.total_lines -
        Int.fdiv exGroupUneven.total_lines (exGroupUneven.count : Int) :=
  (potential_savings_integer_average.1 exGroupUneven).1 (by decide)

/-- C7 (amended): the orchestrator is total and, on a nonexistent root
(`is_file()` false, `rglob` empty), returns the ordinary empty analysis —
not an error value of any kind. -/
theorem analyze_project_missingRoot_empty :
    ∀ (root : String) (sp : Bool) (min_lines : Int) (t : ℚ),
      analyze_project root ⟨false, sp, []⟩ min_lines t =
        { root_path := root, files_analyzed := 0, functions_found := 0,
          duplicates := [], recommendations := [] } :=
  fun _ _ _ _ => rfl

/-- C7 (counterexample to the claim as stated): at a concrete nonexistent
root the result is the plain empty `ProjectAnalysis` — the same normal
value an existing empty directory produces — so the nonexistent root is
not surfaced as a typed error or any caller-distinguishable failure. -/
theorem missingRoot_normal_result :
    analyze_project "missing_dir" exMissingFS 5 1 =
      { root_path := "missing_dir", files_analyzed := 0, functions_found := 0,
        duplicates := [], recommendations := [] } := rfl

/-- C8: a file whose source fails to parse yields no signatures, and
appending such a file to a directory scan leaves every analysis field
unchanged except the file count — the failure never aborts or alters the
rest of the scan. -/
theorem extract_functions_parse_failure_skipped :
    (∀ path : String, extract_functions_from_file path none = []) ∧
    (∀ (root : String) (sp : Bool) (files : List (String × Option StmtList))
        (min_lines : Int) (t : ℚ) (p : String),
      analyze_project root ⟨false, sp, files ++ [(p, none)]⟩ min_lines t =
        { analyze_project root ⟨false, sp, files⟩ min_lines t with
            files_analyzed :=
              (analyze_project root ⟨false, sp, files⟩ min_lines t).files_analyzed
                + 1 }) := by
  constructor
  · intro path
    rfl
  · intro root sp files min_lines t p
    have hfm : (files ++ [(p, none)]).flatMap
        (fun pf => extract_functions_from_file pf.1 pf.2) =
        files.flatMap (fun pf => extract_functions_from_file pf.1 pf.2) := by
      rw [List.flatMap_append]
      simp [extract_functions_from_file]
    simp [analyze_project, hfm]

/-- C9: every signature the extractor produces satisfies
`line_count = end_line - start_line + 1` (the parser always supplies
`end_lineno` on definition nodes, so the defensive fallback never fires). -/
theorem line_count_invariant :
    ∀ (path : String) (tree : Option StmtList) (sig : FunctionSignature),
      sig ∈ extract_functions_from_file path tree →
      sig.line_count = sig.end_line - sig.start_line + 1 := by
  intro path tree sig hmem
  cases tree with
  | none => simp [extract_functions_from_file] at hmem
  | some t =>
      simp only [extract_functions_from_file] at hmem
      rcases List.mem_filterMap.mp hmem with ⟨s, _, hmk⟩
      cases s with
      | funcDef n args body l e async =>
          simp only [mkSignature] at hmk
          injection hmk with h2
          subst h2
          rfl
      | exprStmt e => simp [mkSignature] at hmk
      | assign t2 v => simp [mkSignature] at hmk
      | ret e => simp [mkSignature] at hmk
      | retNone => simp [mkSignature] at hmk
      | ifS t2 b o => simp [mkSignature] at hmk

/-- Witness for C9 at the one-function file `a.py`. -/
theorem line_count_invariant_witness :
    exSigLen.line_count = exSigLen.end_line - exSigLen.start_line + 1 :=
  line_count_invariant "a.py" (some exModLen) exSigLen (by decide)

/-! Well-formedness of the groups `find_duplicates` emits. -/

/-- Inserting a signature into the hash buckets preserves the bucket
invariant: every member of a bucket carries the bucket's hash and the
insertion predicate. -/
theorem addToHashGroups_invariant (P : FunctionSignature → Prop) :
    ∀ (m : List (Nat × List FunctionSignature)) (f : FunctionSignature),
    (∀ p ∈ m, ∀ x ∈ p.2, x.body_hash = p.1 ∧ P x) → P f →
    ∀ p ∈ addToHashGroups m f, ∀ x ∈ p.2, x.body_hash = p.1 ∧ P x
  | [], f, _, hf => by
      intro p hp x hx
      simp only [addToHashGroups, List.mem_singleton] at hp
      subst hp
      simp only [List.mem_singleton] at hx
      subst hx
      exact ⟨rfl, hf⟩
  | (h, g) :: rest, f, hm, hf => by
      intro p hp x hx
      by_cases hh : h = f.body_hash
      · simp only [addToHashGroups, if_pos hh] at hp
        rcases List.mem_cons.mp hp with hp1 | hp1
        · subst hp1
          rcases List.mem_append.mp hx with hx1 | hx1
          · exact hm (h, g) (List.mem_cons_self _ _) x hx1
          · have hxf : x = f := by simpa using hx1
            subst hxf
            exact ⟨hh.symm, hf⟩
        · exact hm _ (List.mem_cons_of_mem _ hp1) x hx
      · simp only [addToHashGroups, if_neg hh] at hp
        rcases List.mem_cons.mp hp with hp1 | hp1
        · subst hp1
          exact hm (h, g) (List.mem_cons_self _ _) x hx
        · exact addToHashGroups_invariant P rest f
            (fun q hq => hm q (List.mem_cons_of_mem _ hq)) hf p hp1 x hx

/-- The bucket invariant holds after folding any signature list whose
members satisfy the predicate. -/
theorem foldl_addToHashGroups_invariant (P : FunctionSignature → Prop) :
    ∀ (l : List FunctionSignature) (m : List (Nat × List FunctionSignature)),
    (∀ p ∈ m, ∀ x ∈ p.2, x.body_hash = p.1 ∧ P x) → (∀ f ∈ l, P f) →
    ∀ p ∈ l.foldl addToHashGroups m, ∀ x ∈ p.2, x.body_hash = p.1 ∧ P x
  | [], _, hm, _ => hm
  | f :: l, m, hm, hl => by
      rw [List.foldl_cons]
      exact foldl_addToHashGroups_invariant P l (addToHashGroups m f)
        (addToHashGroups_invariant P m f hm (hl f (List.mem_cons_self _ _)))
        (fun x hx => hl x (List.mem_cons_of_mem _ hx))

/-- Membership through the stable descending insertion. -/
theorem mem_insertByCountDesc (g x : DuplicateGroup) :
    ∀ (l : List DuplicateGroup), x ∈ insertByCountDesc g l ↔ x = g ∨ x ∈ l
  | [] => by simp [insertByCountDesc]
  | y :: rest => by
      simp only [insertByCountDesc]
      by_cases h : y.count < g.count
      · simp only [if_pos h, List.mem_cons]
      · simp only [if_neg h, List.mem_cons, mem_insertByCountDesc g x rest]
        tauto

/-- Membership through the whole sort. -/
theorem mem_foldl_insertByCountDesc (x : DuplicateGroup) :
    ∀ (l acc : List DuplicateGroup),
      x ∈ l.foldl (fun acc g => insertByCountDesc g acc) acc ↔ x ∈ acc ∨ x ∈ l
  | [], acc => by simp
  | gg :: l, acc => by
      rw [List.foldl_cons, mem_foldl_insertByCountDesc x l _,
        mem_insertByCountDesc gg x acc]
      simp only [List.mem_cons]
      tauto

/-- C3: every group `find_duplicates` emits is well-formed: it has at
least two members, all members share one digest, and no member is below
the minimum line count. -/
theorem find_duplicates_groups_wellformed :
    ∀ (functions : List FunctionSignature) (threshold : ℚ) (min_lines : Int),
    ∀ g ∈ find_duplicates functions threshold min_lines,
      2 ≤ g.count ∧
      (∀ f1 ∈ g.functions, ∀ f2 ∈ g.functions, f1.body_hash = f2.body_hash) ∧
      (∀ f ∈ g.functions, min_lines ≤ f.line_count) := by
  intro functions threshold min_lines g hg
  simp only [find_duplicates, sortByCountDesc] at hg
  rw [mem_foldl_insertByCountDesc] at hg
  rcases hg with hg | hg
  · simp at hg
  rcases List.mem_filterMap.mp hg with ⟨p, hp, hcond⟩
  by_cases h2 : 2 ≤ p.2.length
  · rw [if_pos h2] at hcond
    injection hcond with hcg
    subst hcg
    have hinv := foldl_addToHashGroups_invariant
      (fun f => min_lines ≤ f.line_count)
      (functions.filter (fun f => min_lines ≤ f.line_count)) []
      (by intro q hq; simp at hq)
      (by
        intro f hf
        have := List.mem_filter.mp hf
        exact of_decide_eq_true this.2)
    refine ⟨by simpa [DuplicateGroup.count, mkDuplicateGroup] using h2, ?_, ?_⟩
    · intro f1 hf1 f2 hf2
      have e1 := (hinv p hp f1 (by simpa [mkDuplicateGroup] using hf1)).1
      have e2 := (hinv p hp f2 (by simpa [mkDuplicateGroup] using hf2)).1
      rw [e1, e2]
    · intro f hf
      exact (hinv p hp f (by simpa [mkDuplicateGroup] using hf)).2
  · rw [if_neg h2] at hcond
    exact absurd hcond (by simp)

/-- Witness for C3 at two same-digest 10-line signatures with a
minimum-line threshold of 5. -/
theorem find_duplicates_groups_wellformed_witness :
    2 ≤ exGroupAB.count :=
  (find_duplicates_groups_wellformed [exSigA, exSigB] 1 5 exGroupAB (by decide)).1

/-! Completeness of the hash bucketing: the bucket of a digest holds
exactly the filtered signatures carrying that digest, in order. -/

/-- Lookup through one `addToHashGroups` step. -/
theorem lookup_addToHashGroups (k : Nat) :
    ∀ (m : List (Nat × List FunctionSignature)) (f : FunctionSignature),
    List.lookup k (addToHashGroups m f) =
      if k = f.body_hash then some ((List.lookup k m).getD [] ++ [f])
      else List.lookup k m
  | [], f => by
      by_cases h : k = f.body_hash
      · subst h
        simp [addToHashGroups, List.lookup]
      · have hb : (k == f.body_hash) = false := beq_eq_false_iff_ne.mpr h
        simp [addToHashGroups, List.lookup, hb, h]
  | (n, g) :: rest, f => by
      by_cases hn : n = f.body_hash
      · simp only [addToHashGroups, if_pos hn]
        by_cases hk : k = n
        · subst hk
          simp [List.lookup, hn]
        · have hb : (k == n) = false := beq_eq_false_iff_ne.mpr hk
          have hkh : ¬ k = f.body_hash := fun e => hk (e.trans hn.symm)
          simp [List.lookup, hb, hkh]
      · simp only [addToHashGroups, if_neg hn]
        by_cases hk : k = n
        · subst hk
          have hkh : ¬ k = f.body_hash := hn
          simp [List.lookup, hkh]
        · have hb : (k == n) = false := beq_eq_false_iff_ne.mpr hk
          simp only [List.lookup, hb]
          exact lookup_addToHashGroups k rest f

/-- If a digest already has a bucket, folding appends exactly the later
signatures carrying it, in order. -/
theorem lookup_hashGroups_some (k : Nat) :
    ∀ (l : List FunctionSignature) (m : List (Nat × List FunctionSignature))
      (b : List FunctionSignature),
    List.lookup k m = some b →
    List.lookup k (l.foldl addToHashGroups m) =
      some (b ++ l.filter (fun f => f.body_hash == k))
  | [], m, b, hm => by simpa using hm
  | f :: l, m, b, hm => by
      rw [List.foldl_cons]
      by_cases hf : f.body_hash = k
      · have hstep : List.lookup k (addToHashGroups m f) = some (b ++ [f]) := by
          rw [lookup_addToHashGroups, if_pos hf.symm, hm]
          rfl
        rw [lookup_hashGroups_some k l _ _ hstep]
        have hfb : (f.body_hash == k) = true := beq_iff_eq.mpr hf
        simp [List.filter_cons, hfb]
      · have hstep : List.lookup k (addToHashGroups m f) = List.lookup k m := by
          rw [lookup_addToHashGroups, if_neg (fun e => hf e.symm)]
        rw [lookup_hashGroups_some k l _ b (hstep.trans hm)]
        have hfb : (f.body_hash == k) = false := beq_eq_false_iff_ne.mpr hf
        simp [List.filter_cons, hfb]

/-- Starting without a bucket for the digest, the folded bucket holds
exactly the signatures carrying it (and exists exactly when there is at
least one). -/
theorem lookup_hashGroups_none (k : Nat) :
    ∀ (l : List FunctionSignature) (m : List (Nat × List FunctionSignature)),
    List.lookup k m = none →
    List.lookup k (l.foldl addToHashGroups m) =
      (if (l.filter (fun f => f.body_hash == k)).isEmpty then none
       else some (l.filter (fun f => f.body_hash == k)))
  | [], m, hm => by simpa using hm
  | f :: l, m, hm => by
      rw [List.foldl_cons]
      by_cases hf : f.body_hash = k
      · have hstep : List.lookup k (addToHashGroups m f) = some [f] := by
          rw [lookup_addToHashGroups, if_pos hf.symm, hm]
          rfl
        rw [lookup_hashGroups_some k l _ [f] hstep]
        have hfb : (f.body_hash == k) = true := beq_iff_eq.mpr hf
        simp [List.filter_cons, hfb]
      · have hstep : List.lookup k (addToHashGroups m f) = List.lookup k m := by
          rw [lookup_addToHashGroups, if_neg (fun e => hf e.symm)]
        rw [lookup_hashGroups_none k l _ (hstep.trans hm)]
        have hfb : (f.body_hash == k) = false := beq_eq_false_iff_ne.mpr hf
        simp [List.filter_cons, hfb]

/-- A successful bucket lookup comes from a stored bucket. -/
theorem mem_of_lookup_hash :
    ∀ (m : List (Nat × List FunctionSignature)) (k : Nat)
      (v : List FunctionSignature),
    List.lookup k m = some v → (k, v) ∈ m
  | [], k, v, h => by simp [List.lookup] at h
  | (n, g) :: rest, k, v, h => by
      by_cases hk : k = n
      · subst hk
        simp only [List.lookup, beq_self_eq_true] at h
        injection h with h2
        subst h2
        exact List.mem_cons_self _ _
      · have hb : (k == n) = false := beq_eq_false_iff_ne.mpr hk
        simp only [List.lookup, hb] at h
        exact List.mem_cons_of_mem _ (mem_of_lookup_hash rest k v h)

/-- A list holding two distinct members has at least two elements. -/
theorem two_mem_two_le_length (s1 s2 : FunctionSignature) :
    ∀ (l : List FunctionSignature), s1 ∈ l → s2 ∈ l → s1 ≠ s2 → 2 ≤ l.length
  | [], h1, _, _ => absurd h1 (List.not_mem_nil s1)
  | [x], h1, h2, hne => by
      simp only [List.mem_singleton] at h1 h2
      exact absurd (h1.trans h2.symm) hne
  | _ :: _ :: t, _, _, _ => by
      simp only [List.length_cons]
      omega

/-! Characterization of the `name_to_files` buckets built by
`generate_recommendations`. -/

/-- Lookup through one `addNameFile` step. -/
theorem lookup_addNameFile (k : String) :
    ∀ (m : List (String × List String)) (name file : String),
    List.lookup k (addNameFile m name file) =
      if k = name then some ((List.lookup k m).getD [] ++ [file])
      else List.lookup k m
  | [], name, file => by
      by_cases h : k = name
      · subst h
        simp [addNameFile, List.lookup]
      · have hb : (k == name) = false := beq_eq_false_iff_ne.mpr h
        simp [addNameFile, List.lookup, hb, h]
  | (n, fs) :: rest, name, file => by
      by_cases hn : n = name
      · subst hn
        simp only [addNameFile, if_pos rfl]
        by_cases hk : k = n
        · subst hk
          simp [List.lookup]
        · have hb : (k == n) = false := beq_eq_false_iff_ne.mpr hk
          simp [List.lookup, hb, hk]
      · simp only [addNameFile, if_neg hn]
        by_cases hk : k = n
        · subst hk
          have hkname : ¬ k = name := hn
          simp [List.lookup, hkname]
        · have hb : (k == n) = false := beq_eq_false_iff_ne.mpr hk
          simp only [List.lookup, hb]
          exact lookup_addNameFile k rest name file

/-- If a name already has a bucket, folding appends exactly the files of
its later occurrences, in order. -/
theorem lookup_nameFiles_some (k : String) :
    ∀ (l : List FunctionSignature) (m : List (String × List String))
      (b : List String),
    List.lookup k m = some b →
    List.lookup k (l.foldl (fun acc f => addNameFile acc f.name f.file) m) =
      some (b ++ (l.filter (fun f => f.name == k)).map (·.file))
  | [], m, b, hm => by simpa using hm
  | f :: l, m, b, hm => by
      rw [List.foldl_cons]
      by_cases hf : f.name = k
      · have hstep : List.lookup k (addNameFile m f.name f.file) =
            some (b ++ [f.file]) := by
          rw [lookup_addNameFile, if_pos hf.symm, hm]
          rfl
        have := lookup_nameFiles_some k l (addNameFile m f.name f.file)
          (b ++ [f.file]) hstep
        rw [this]
        have hfb : (f.name == k) = true := beq_iff_eq.mpr hf
        simp [List.filter_cons, hfb]
      · have hstep : List.lookup k (addNameFile m f.name f.file) =
            List.lookup k m := by
          rw [lookup_addNameFile, if_neg (fun e => hf e.symm)]
        have := lookup_nameFiles_some k l (addNameFile m f.name f.file) b
          (hstep.trans hm)
        rw [this]
        have hfb : (f.name == k) = false := beq_eq_false_iff_ne.mpr hf
        simp [List.filter_cons, hfb]

/-- Starting from a map without a bucket for the name, the folded bucket
holds exactly the files of the name's occurrences (and exists exactly when
there is at least one). -/
theorem lookup_nameFiles_none (k : String) :
    ∀ (l : List FunctionSignature) (m : List (String × List String)),
    List.lookup k m = none →
    List.lookup k (l.foldl (fun acc f => addNameFile acc f.name f.file) m) =
      (if (l.filter (fun f => f.name == k)).isEmpty then none
       else some ((l.filter (fun f => f.name == k)).map (·.file)))
  | [], m, hm => by simpa using hm
  | f :: l, m, hm => by
      rw [List.foldl_cons]
      by_cases hf : f.name = k
      · have hstep : List.lookup k (addNameFile m f.name f.file) =
            some [f.file] := by
          rw [lookup_addNameFile, if_pos hf.symm, hm]
          rfl
        have := lookup_nameFiles_some k l (addNameFile m f.name f.file)
          [f.file] hstep
        rw [this]
        have hfb : (f.name == k) = true := beq_iff_eq.mpr hf
        simp [List.filter_cons, hfb]
      · have hstep : List.lookup k (addNameFile m f.name f.file) =
            List.lookup k m := by
          rw [lookup_addNameFile, if_neg (fun e => hf e.symm)]
        have := lookup_nameFiles_none k l (addNameFile m f.name f.file)
          (hstep.trans hm)
        rw [this]
        have hfb : (f.name == k) = false := beq_eq_false_iff_ne.mpr hf
        simp [List.filter_cons, hfb]

/-- Keys after one `addNameFile` step. -/
theorem keys_addNameFile (k : String) :
    ∀ (m : List (String × List String)) (name file : String),
    k ∈ (addNameFile m name file).map Prod.fst →
    k ∈ m.map Prod.fst ∨ k = name
  | [], name, file, h => by
      simp only [addNameFile, List.map_cons, List.map_nil,
        List.mem_singleton] at h
      exact Or.inr h
  | (n, fs) :: rest, name, file, h => by
      by_cases hn : n = name
      · rw [addNameFile, if_pos hn] at h
        exact Or.inl h
      · rw [addNameFile, if_neg hn] at h
        simp only [List.map_cons, List.mem_cons] at h
        rcases h with h | h
        · exact Or.inl (by simp [h])
        · rcases keys_addNameFile k rest name file h with h2 | h2
          · exact Or.inl (by simp; right; simpa using h2)
          · exact Or.inr h2

/-- `addNameFile` keeps the keys duplicate-free. -/
theorem nodup_keys_addNameFile :
    ∀ (m : List (String × List String)) (name file : String),
    (m.map Prod.fst).Nodup → ((addNameFile m name file).map Prod.fst).Nodup
  | [], name, file, _ => by simp [addNameFile]
  | (n, fs) :: rest, name, file, h => by
      simp only [List.map_cons, List.nodup_cons] at h
      by_cases hn : n = name
      · rw [addNameFile, if_pos hn]
        simp only [List.map_cons, List.nodup_cons]
        exact h
      · rw [addNameFile, if_neg hn]
        simp only [List.map_cons, List.nodup_cons]
        refine ⟨?_, nodup_keys_addNameFile rest name file h.2⟩
        intro hmem
        rcases keys_addNameFile n rest name file hmem with h2 | h2
        · exact h.1 h2
        · exact hn h2

/-- Folding signatures keeps the keys duplicate-free. -/
theorem nodup_keys_nameFiles :
    ∀ (l : List FunctionSignature) (m : List (String × List String)),
    (m.map Prod.fst).Nodup →
    ((l.foldl (fun acc f => addNameFile acc f.name f.file) m).map Prod.fst).Nodup
  | [], _, hm => hm
  | f :: l, m, hm => by
      rw [List.foldl_cons]
      exact nodup_keys_nameFiles l _ (nodup_keys_addNameFile m f.name f.file hm)

/-- With duplicate-free keys, a stored pair is what lookup returns. -/
theorem lookup_of_mem_nodup :
    ∀ (m : List (String × List String)),
    (m.map Prod.fst).Nodup → ∀ p ∈ m, List.lookup p.1 m = some p.2
  | [], _, p, hp => absurd hp (List.not_mem_nil p)
  | (n, fs) :: rest, h, p, hp => by
      simp only [List.map_cons, List.nodup_cons] at h
      rcases List.mem_cons.mp hp with hp1 | hp1
      · subst hp1
        simp [List.lookup]
      · have hne : p.1 ≠ n := by
          intro e
          exact h.1 (e ▸ List.mem_map.mpr ⟨p, hp1, rfl⟩)
        have hb : (p.1 == n) = false := beq_eq_false_iff_ne.mpr hne
        simp only [List.lookup, hb]
        exact lookup_of_mem_nodup rest h.2 p hp1

/-- A successful lookup comes from a stored pair. -/
theorem mem_of_lookup :
    ∀ (m : List (String × List String)) (k : String) (v : List String),
    List.lookup k m = some v → (k, v) ∈ m
  | [], k, v, h => by simp [List.lookup] at h
  | (n, fs) :: rest, k, v, h => by
      by_cases hk : k = n
      · subst hk
        simp only [List.lookup, beq_self_eq_true] at h
        injection h with h2
        subst h2
        exact List.mem_cons_self _ _
      · have hb : (k == n) = false := beq_eq_false_iff_ne.mpr hk
        simp only [List.lookup, hb] at h
        exact List.mem_cons_of_mem _ (mem_of_lookup rest k v h)

/-- C6 (amended): `generate_recommendations` emits a same-name line for a
function name exactly when the name has at least three occurrences among
all extracted signatures, counted with multiplicity and regardless of how
many distinct files they sit in or whether their digests differ, and the
name is not one of the lifecycle names; the reported count is that
occurrence count. -/
theorem same_name_recommendation_characterization
    (functions : List FunctionSignature) (duplicates : List DuplicateGroup)
    (nm : String) (c : Nat) :
    Recommendation.sameName nm c ∈ generate_recommendations functions duplicates ↔
      (c = (functions.filter (fun f => f.name == nm)).length ∧ 3 ≤ c ∧
        nm ∉ (["__init__", "main", "setup"] : List String)) := by
  constructor
  · intro hmem
    simp only [generate_recommendations] at hmem
    rcases List.mem_append.mp hmem with h1 | h1
    · by_cases hd : duplicates.isEmpty
      · rw [if_pos hd] at h1
        simp at h1
      · rw [if_neg hd] at h1
        simp at h1
    · rcases List.mem_filterMap.mp h1 with ⟨p, hp, hcond⟩
      by_cases hc : 3 ≤ p.2.length ∧
          p.1 ∉ (["__init__", "main", "setup"] : List String)
      · rw [if_pos hc] at hcond
        injection hcond with hsome
        injection hsome with ha hb
        have hnodup := nodup_keys_nameFiles functions [] (by simp)
        have hlk := lookup_of_mem_nodup _ hnodup p hp
        have hall := lookup_nameFiles_none p.1 functions [] rfl
        rw [hlk] at hall
        by_cases hemp : (functions.filter (fun f => f.name == p.1)).isEmpty
        · rw [if_pos hemp] at hall
          exact absurd hall (by simp)
        · rw [if_neg hemp] at hall
          injection hall with hv
          subst ha
          subst hb
          rw [hv]
          refine ⟨by simp, by simpa [hv] using hc.1, hc.2⟩
      · rw [if_neg hc] at hcond
        exact absurd hcond (by simp)
  · rintro ⟨hc, h3, hnot⟩
    simp only [generate_recommendations]
    apply List.mem_append.mpr
    right
    apply List.mem_filterMap.mpr
    have hemp : ¬ (functions.filter (fun f => f.name == nm)).isEmpty := by
      intro he
      rw [List.isEmpty_iff] at he
      rw [he] at hc
      simp at hc
      omega
    have hlk := lookup_nameFiles_none nm functions [] rfl
    rw [if_neg hemp] at hlk
    refine ⟨(nm, (functions.filter (fun f => f.name == nm)).map (·.file)),
      mem_of_lookup _ nm _ hlk, ?_⟩
    have hlen : ((functions.filter (fun f => f.name == nm)).map (·.file)).length =
        (functions.filter (fun f => f.name == nm)).length := by simp
    rw [if_pos ⟨by rw [hlen]; omega, hnot⟩]
    rw [hlen, ← hc]

/-- C6 (counterexample to the claim as stated): three same-named,
same-digest functions inside one single file already trigger the
recommendation line, although they span one distinct file and no differing
hashes. -/
theorem same_name_recommendation_single_file :
    Recommendation.sameName "foo" 3 ∈
        generate_recommendations exSameNameOneFile [] ∧
    firstOccur (exSameNameOneFile.map (·.file)) = ["a.py"] ∧
    (∀ f1 ∈ exSameNameOneFile, ∀ f2 ∈ exSameNameOneFile,
      f1.body_hash = f2.body_hash) := by
  exact ⟨by decide, by decide, by decide⟩

/-- Witness for the amended C6 theorem: the name `bar` occurring three
times among the signatures gets its line. -/
theorem same_name_recommendation_characterization_witness :
    Recommendation.sameName "bar" 3 ∈
      generate_recommendations
        [⟨"a.py", "bar", 1, 2, [], 5, 0, 2⟩, ⟨"b.py", "bar", 1, 2, [], 6, 0, 2⟩,
         ⟨"c.py", "bar", 1, 2, [], 7, 0, 2⟩] [] :=
  (same_name_recommendation_characterization
      [⟨"a.py", "bar", 1, 2, [], 5, 0, 2⟩, ⟨"b.py", "bar", 1, 2, [], 6, 0, 2⟩,
       ⟨"c.py", "bar", 1, 2, [], 7, 0, 2⟩] [] "bar" 3).mpr
    ⟨by decide, by decide, by decide⟩

/-- C10 (amended): the canonicalizer renames every bare identifier
occurrence, globals and builtins included.  Consequently, replacing which
names a function references preserves the digest whenever the replacement
is injective on the identifiers occurring in the function — in particular
swapping one referenced builtin for a name not otherwise referenced, like
`len` versus `max` — and any two distinct signatures sharing a digest that
both pass the minimum-line filter are placed by `find_duplicates` into one
common clone group.  Concretely, `len` is bound to `var_1` in
`def measure(a): return len(a)`, the `max`-calling twin hashes
identically, and the two extracted signatures form one group.  A
replacement that identifies two distinct referenced names falls outside
the injectivity proviso (see the counterexample). -/
theorem global_renaming_grouping :
    (∀ (n : String) (args : List String) (body : StmtList) (l e : Int)
        (async : Bool) (σ : String → String),
      (∀ a ∈ stmtIdents (Stmt.funcDef n args body l e async),
       ∀ b ∈ stmtIdents (Stmt.funcDef n args body l e async),
        σ a = σ b → a = b) →
      hash_function_body (renameStmt σ (Stmt.funcDef n args body l e async)) =
        hash_function_body (Stmt.funcDef n args body l e async)) ∧
    (∀ (functions : List FunctionSignature) (threshold : ℚ) (min_lines : Int)
        (s1 s2 : FunctionSignature),
      s1 ∈ functions → s2 ∈ functions → s1 ≠ s2 →
      s1.body_hash = s2.body_hash →
      min_lines ≤ s1.line_count → min_lines ≤ s2.line_count →
      ∃ g ∈ find_duplicates functions threshold min_lines,
        s1 ∈ g.functions ∧ s2 ∈ g.functions) ∧
    (List.lookup "len" (normStmt ⟨[], 0⟩ exFuncLen).2.name_map = some "var_1" ∧
     hash_function_body exFuncLen = hash_function_body exFuncMax ∧
     find_duplicates exCloneSigs 1 1 =
       [⟨[exSigLen, exSigMax], 1, "measure", "/utils.py"⟩]) := by
  refine ⟨?_, ?_, by decide, by decide, by decide⟩
  · intro n args body l e async σ hinj
    have key := renameNormStmt σ
      (stmtIdents (Stmt.funcDef n args body l e async)) hinj
      (Stmt.funcDef n args body l e async) ⟨[], 0⟩
      (fun k hk => absurd hk (List.not_mem_nil k)) (fun x hx => hx)
    have h0 : mapSt σ (⟨[], 0⟩ : NormState) = ⟨[], 0⟩ := rfl
    rw [h0] at key
    simp only [hash_function_body, normalize_ast, key]
  · intro functions threshold min_lines s1 s2 h1 h2 hne hh hl1 hl2
    have hc1 : s1 ∈ functions.filter (fun f => min_lines ≤ f.line_count) :=
      List.mem_filter.mpr ⟨h1, decide_eq_true hl1⟩
    have hc2 : s2 ∈ functions.filter (fun f => min_lines ≤ f.line_count) :=
      List.mem_filter.mpr ⟨h2, decide_eq_true hl2⟩
    have hb1 : s1 ∈ (functions.filter (fun f => min_lines ≤ f.line_count)).filter
        (fun f => f.body_hash == s1.body_hash) :=
      List.mem_filter.mpr ⟨hc1, beq_self_eq_true _⟩
    have hb2 : s2 ∈ (functions.filter (fun f => min_lines ≤ f.line_count)).filter
        (fun f => f.body_hash == s1.body_hash) :=
      List.mem_filter.mpr ⟨hc2, beq_iff_eq.mpr hh.symm⟩
    have hBne : ¬ ((functions.filter (fun f => min_lines ≤ f.line_count)).filter
        (fun f => f.body_hash == s1.body_hash)).isEmpty = true := by
      intro he
      rw [List.isEmpty_iff] at he
      rw [he] at hb1
      exact absurd hb1 (List.not_mem_nil s1)
    have hlk := lookup_hashGroups_none s1.body_hash
      (functions.filter (fun f => min_lines ≤ f.line_count)) [] rfl
    rw [if_neg hBne] at hlk
    have hmem := mem_of_lookup_hash _ _ _ hlk
    have hlen : 2 ≤ ((functions.filter (fun f => min_lines ≤ f.line_count)).filter
        (fun f => f.body_hash == s1.body_hash)).length :=
      two_mem_two_le_length s1 s2 _ hb1 hb2 hne
    refine ⟨mkDuplicateGroup ((functions.filter
        (fun f => min_lines ≤ f.line_count)).filter
        (fun f => f.body_hash == s1.body_hash)), ?_, ?_, ?_⟩
    · simp only [find_duplicates, sortByCountDesc]
      rw [mem_foldl_insertByCountDesc]
      right
      exact List.mem_filterMap.mpr
        ⟨(s1.body_hash, (functions.filter (fun f => min_lines ≤ f.line_count)).filter
            (fun f => f.body_hash == s1.body_hash)), hmem, by rw [if_pos hlen]⟩
    · simpa [mkDuplicateGroup] using hb1
    · simpa [mkDuplicateGroup] using hb2

/-- Witness for the amended C10 theorem: swapping `len` for the
not-otherwise-referenced `max` preserves the digest of `exFuncLen`, and
the two same-digest fixture signatures land in one common group. -/
theorem global_renaming_grouping_witness :
    hash_function_body (renameStmt exSwapLenMax exFuncLen) =
      hash_function_body exFuncLen ∧
    ∃ g ∈ find_duplicates [exSigA, exSigB] 1 5,
      exSigA ∈ g.functions ∧ exSigB ∈ g.functions :=
  ⟨global_renaming_grouping.1 "measure" ["a"]
      (.cons (.ret (.call (.name "len") (.cons (.name "a") .nil))) .nil)
      1 2 false exSwapLenMax (by decide),
   global_renaming_grouping.2.1 [exSigA, exSigB] 1 5 exSigA exSigB
      (by decide) (by decide) (by decide) (by decide) (by decide) (by decide)⟩

end AutoRefactor
